import Mathlib

/-!
# Tiny KV Store Pro — verification of the storage engine

A shallow embedding of `src/tiny-kv-store-pro.js` (class `TinyKVStorePro`
together with the `Crypto` and `Compression` modules) and proofs about it.

Modelling conventions:
* JS strings are lists of UTF-16 code units (`List Nat`); the inputs used in
  the theorems are ASCII, where Lean `Char.toNat` agrees with JS `charCodeAt`.
* JS values are the inductive `JSVal`; JS numbers are modelled as exact
  decimals `m * 10 ^ p` in the canonical form produced by `JSVal.mkNum`
  (mantissa not divisible by ten), so that structural equality coincides
  with JS number equality.  Binary floating point rounding is not modelled;
  all numeric literals appearing in the claims are small integers for which
  the two agree.
* `Map` and `Set` are association lists / lists keeping JS insertion-order
  semantics: `set` on an existing key overwrites in place, otherwise appends.
  (JS compares object keys by reference; the structural equality used here
  agrees with JS SameValueZero on all primitive values, the only keys that
  occur in the claims.)
* Time is an explicit `now : Nat` parameter (milliseconds, `Date.now()`);
  the one-shot `setTimeout` deletions scheduled by `put` are modelled as a
  `timers` list of `(fire time, key)` pairs, and running such a callback is
  the `runTimer` function.
* `performance.now()` latency measurements and the `stats` counters are not
  modelled: no claim mentions them and they do not influence any other field.
* Thrown JS exceptions are modelled by returning `Except JSErr` results
  together with the state at the moment of the throw.
-/

/-- UTF-16 code units of a Lean string literal (all inputs used are ASCII,
where this coincides with JS `charCodeAt`). -/
def strC (s : String) : List Nat := s.toList.map Char.toNat

/-- A JavaScript value, as far as the engine can observe it. -/
inductive JSVal where
  | vstr (s : List Nat)
  | vnum (m p : Int)
  | vbool (b : Bool)
  | vnull
  | vundef
  | varr (xs : List JSVal)
  | vobj (fs : List (List Nat × JSVal))

namespace JSVal

mutual

/-- Structural equality of JS values (agrees with JS `===` / SameValueZero on
primitives; object identity is not modelled). -/
def beq : JSVal → JSVal → Bool
  | .vstr a, .vstr b => a = b
  | .vnum a b, .vnum a' b' => decide (a = a') && decide (b = b')
  | .vbool a, .vbool b => a = b
  | .vnull, .vnull => true
  | .vundef, .vundef => true
  | .varr xs, .varr ys => listBeq xs ys
  | .vobj fs, .vobj gs => fieldsBeq fs gs
  | _, _ => false

/-- Elementwise `beq` on lists of JS values. -/
def listBeq : List JSVal → List JSVal → Bool
  | [], [] => true
  | x :: xs, y :: ys => beq x y && listBeq xs ys
  | _, _ => false

/-- Elementwise `beq` on object field lists. -/
def fieldsBeq : List (List Nat × JSVal) → List (List Nat × JSVal) → Bool
  | [], [] => true
  | (k, v) :: xs, (k', v') :: ys => decide (k = k') && beq v v' && fieldsBeq xs ys
  | _, _ => false

end

mutual

theorem beq_refl : (v : JSVal) → beq v v = true
  | .vstr _ => by simp [beq]
  | .vnum _ _ => by simp [beq]
  | .vbool _ => by simp [beq]
  | .vnull => by simp [beq]
  | .vundef => by simp [beq]
  | .varr xs => by simp [beq, listBeq_refl xs]
  | .vobj fs => by simp [beq, fieldsBeq_refl fs]

theorem listBeq_refl : (xs : List JSVal) → listBeq xs xs = true
  | [] => by simp [listBeq]
  | x :: xs => by simp [listBeq, beq_refl x, listBeq_refl xs]

theorem fieldsBeq_refl : (fs : List (List Nat × JSVal)) → fieldsBeq fs fs = true
  | [] => by simp [fieldsBeq]
  | (k, v) :: fs => by simp [fieldsBeq, beq_refl v, fieldsBeq_refl fs]

end

mutual

theorem eq_of_beq : {a b : JSVal} → beq a b = true → a = b
  | .vstr _, .vstr _, h => by simpa [beq] using h
  | .vnum _ _, .vnum _ _, h => by
      have h' := h
      simp only [beq, Bool.and_eq_true, decide_eq_true_eq] at h'
      simp [h'.1, h'.2]
  | .vbool _, .vbool _, h => by simpa [beq] using h
  | .vnull, .vnull, _ => rfl
  | .vundef, .vundef, _ => rfl
  | .varr xs, .varr ys, h => by
      have := @eq_of_listBeq xs ys (by simpa [beq] using h)
      simp [this]
  | .vobj fs, .vobj gs, h => by
      have := @eq_of_fieldsBeq fs gs (by simpa [beq] using h)
      simp [this]
  | .vstr _, .vnum _ _, h => by simp [beq] at h
  | .vstr _, .vbool _, h => by simp [beq] at h
  | .vstr _, .vnull, h => by simp [beq] at h
  | .vstr _, .vundef, h => by simp [beq] at h
  | .vstr _, .varr _, h => by simp [beq] at h
  | .vstr _, .vobj _, h => by simp [beq] at h
  | .vnum _ _, .vstr _, h => by simp [beq] at h
  | .vnum _ _, .vbool _, h => by simp [beq] at h
  | .vnum _ _, .vnull, h => by simp [beq] at h
  | .vnum _ _, .vundef, h => by simp [beq] at h
  | .vnum _ _, .varr _, h => by simp [beq] at h
  | .vnum _ _, .vobj _, h => by simp [beq] at h
  | .vbool _, .vstr _, h => by simp [beq] at h
  | .vbool _, .vnum _ _, h => by simp [beq] at h
  | .vbool _, .vnull, h => by simp [beq] at h
  | .vbool _, .vundef, h => by simp [beq] at h
  | .vbool _, .varr _, h => by simp [beq] at h
  | .vbool _, .vobj _, h => by simp [beq] at h
  | .vnull, .vstr _, h => by simp [beq] at h
  | .vnull, .vnum _ _, h => by simp [beq] at h
  | .vnull, .vbool _, h => by simp [beq] at h
  | .vnull, .vundef, h => by simp [beq] at h
  | .vnull, .varr _, h => by simp [beq] at h
  | .vnull, .vobj _, h => by simp [beq] at h
  | .vundef, .vstr _, h => by simp [beq] at h
  | .vundef, .vnum _ _, h => by simp [beq] at h
  | .vundef, .vbool _, h => by simp [beq] at h
  | .vundef, .vnull, h => by simp [beq] at h
  | .vundef, .varr _, h => by simp [beq] at h
  | .vundef, .vobj _, h => by simp [beq] at h
  | .varr _, .vstr _, h => by simp [beq] at h
  | .varr _, .vnum _ _, h => by simp [beq] at h
  | .varr _, .vbool _, h => by simp [beq] at h
  | .varr _, .vnull, h => by simp [beq] at h
  | .varr _, .vundef, h => by simp [beq] at h
  | .varr _, .vobj _, h => by simp [beq] at h
  | .vobj _, .vstr _, h => by simp [beq] at h
  | .vobj _, .vnum _ _, h => by simp [beq] at h
  | .vobj _, .vbool _, h => by simp [beq] at h
  | .vobj _, .vnull, h => by simp [beq] at h
  | .vobj _, .vundef, h => by simp [beq] at h
  | .vobj _, .varr _, h => by simp [beq] at h

theorem eq_of_listBeq : {xs ys : List JSVal} → listBeq xs ys = true → xs = ys
  | [], [], _ => rfl
  | [], _ :: _, h => by simp [listBeq] at h
  | _ :: _, [], h => by simp [listBeq] at h
  | x :: xs, y :: ys, h => by
      have h' := h
      simp only [listBeq, Bool.and_eq_true] at h'
      have h1 := @eq_of_beq x y h'.1
      have h2 := @eq_of_listBeq xs ys h'.2
      simp [h1, h2]

theorem eq_of_fieldsBeq : {fs gs : List (List Nat × JSVal)} → fieldsBeq fs gs = true → fs = gs
  | [], [], _ => rfl
  | [], _ :: _, h => by simp [fieldsBeq] at h
  | _ :: _, [], h => by simp [fieldsBeq] at h
  | (k, v) :: fs, (k', v') :: gs, h => by
      have h' := h
      simp only [fieldsBeq, Bool.and_eq_true, decide_eq_true_eq] at h'
      have h1 := @eq_of_beq v v' h'.1.2
      have h2 := @eq_of_fieldsBeq fs gs h'.2
      simp [h'.1.1, h1, h2]

end

instance : DecidableEq JSVal := fun a b =>
  decidable_of_iff (beq a b = true) ⟨eq_of_beq, fun h => h ▸ beq_refl a⟩

/-- JS truthiness of a value (`!!v`). -/
def truthy : JSVal → Bool
  | .vstr s => !s.isEmpty
  | .vnum m _ => m ≠ 0
  | .vbool b => b
  | .vnull => false
  | .vundef => false
  | .varr _ => true
  | .vobj _ => true

/-- Strip trailing decimal zeros from the mantissa (fuelled; any fuel at
least the number of trailing zeros is enough). -/
def stripZeros : Nat → Int → Int → Int × Int
  | 0, m, p => (m, p)
  | fuel + 1, m, p => if m % 10 = 0 then stripZeros fuel (m / 10) (p + 1) else (m, p)

/-- The canonical decimal `m * 10 ^ p`: zero is `vnum 0 0`, otherwise the
mantissa is not divisible by ten, making the representation unique. -/
def mkNum (m p : Int) : JSVal :=
  if m = 0 then .vnum 0 0
  else
    let (m', p') := stripZeros m.natAbs m p
    .vnum m' p'

end JSVal

example : JSVal.beq (.varr [.vnum 3 0, .vstr (strC "ab")]) (.varr [.vnum 3 0, .vstr (strC "ab")]) = true := by decide
example : JSVal.mkNum 2500 (-2) = .vnum 25 0 := by decide
example : JSVal.truthy (.vstr []) = false := by decide

/-! ## Crypto module (`Crypto.encrypt` / `Crypto.decrypt`)

`encrypt(text, key = 'defaultKey')` XORs every UTF-16 code unit with the
repeating key and base64-encodes the result with `btoa`; `decrypt` applies
`atob` and XORs again, returning `null` when `atob` throws. -/

namespace Crypto

/-- Code units of the default key string `'defaultKey'`. -/
def keyCodes : List Nat := strC "defaultKey"

/-- The XOR loop of `encrypt`/`decrypt`, starting at index `i`:
`String.fromCharCode(text.charCodeAt(i) ^ key.charCodeAt(i % key.length))`. -/
def xorFrom (i : Nat) : List Nat → List Nat
  | [] => []
  | c :: rest => (c ^^^ keyCodes.getD (i % 10) 0) :: xorFrom (i + 1) rest

/-- XOR of a whole string with the repeating default key. -/
def xorKey (s : List Nat) : List Nat := xorFrom 0 s

/-- The base64 alphabet, as character codes. -/
def b64Alphabet : List Nat :=
  strC "ABCDEFGHIJKLMNOPQRSTUVWXYZabcdefghijklmnopqrstuvwxyz0123456789+/"

/-- Character of the base64 alphabet at sextet value `v`. -/
def b64Char (v : Nat) : Nat := b64Alphabet.getD v 0

/-- Base64 encoding of a byte list, three bytes at a time, with `=` padding
(code 61): the body of `btoa`. -/
def b64Enc : List Nat → List Nat
  | b1 :: b2 :: b3 :: rest =>
      b64Char (b1 / 4) :: b64Char (b1 % 4 * 16 + b2 / 16) ::
      b64Char (b2 % 16 * 4 + b3 / 64) :: b64Char (b3 % 64) :: b64Enc rest
  | [b1, b2] => [b64Char (b1 / 4), b64Char (b1 % 4 * 16 + b2 / 16), b64Char (b2 % 16 * 4), 61]
  | [b1] => [b64Char (b1 / 4), b64Char (b1 % 4 * 16), 61, 61]
  | [] => []

/-- `btoa`: fails (throws `InvalidCharacterError`) when a code unit exceeds
255, otherwise base64-encodes. -/
def btoa (s : List Nat) : Option (List Nat) :=
  if s.all (· < 256) then some (b64Enc s) else none

/-- ASCII whitespace stripped by the forgiving-base64 decode of `atob`. -/
def isB64Ws (c : Nat) : Bool := c = 9 || c = 10 || c = 12 || c = 13 || c = 32

/-- Strip one or two trailing `=` when the length is a multiple of four
(step 2 of forgiving-base64). -/
def stripPad (s : List Nat) : List Nat :=
  if s.length % 4 = 0 then
    match s.reverse with
    | 61 :: 61 :: rest => rest.reverse
    | 61 :: rest => rest.reverse
    | _ => s
  else s

/-- Position of a character in the base64 alphabet. -/
def b64Index (c : Nat) : Option Nat := b64Alphabet.indexOf? c

/-- Decode a sextet stream back to bytes; a leftover single sextet is an
error, leftover bits of a 2- or 3-sextet tail are discarded. -/
def b64Dec : List Nat → Option (List Nat)
  | d1 :: d2 :: d3 :: d4 :: rest =>
      (b64Dec rest).map fun bs =>
        (d1 * 4 + d2 / 16) :: (d2 % 16 * 16 + d3 / 4) :: (d3 % 4 * 64 + d4) :: bs
  | [] => some []
  | [_] => none
  | [d1, d2] => some [d1 * 4 + d2 / 16]
  | [d1, d2, d3] => some [d1 * 4 + d2 / 16, d2 % 16 * 16 + d3 / 4]

/-- `atob` (forgiving-base64 decode): `none` models the thrown
`InvalidCharacterError`. -/
def atob (s : List Nat) : Option (List Nat) :=
  let t := stripPad (s.filter fun c => !isB64Ws c)
  if t.length % 4 = 1 then none
  else (t.mapM b64Index).bind b64Dec

/-- `Crypto.encrypt` on a string value. -/
def encrypt (s : List Nat) : Option (List Nat) := btoa (xorKey s)

/-- `Crypto.decrypt`: `none` models the `null` returned when `atob` throws. -/
def decrypt (s : List Nat) : Option (List Nat) := (atob s).map xorKey

end Crypto

-- encrypt('ah') = 'BQ0=' and encrypt('ab') = 'BQc=' (checked against JS)
example : Crypto.encrypt (strC "ah") = some (strC "BQ0=") := by decide
example : Crypto.encrypt (strC "ab") = some (strC "BQc=") := by decide
example : Crypto.decrypt (strC "BQc=") = some (strC "ab") := by decide
-- atob('B=') throws
example : Crypto.atob (strC "B=") = none := by decide

/-! ## Compression module (`Compression.compress` / `Compression.decompress`)

`compress` applies `text.replace(/(.)\1+/g, m => m.length > 3 ? char + m.length : m)`:
every maximal run of one repeated character matched by `.` (which excludes
the four line terminators) is rewritten as `<char><decimal run length>` when
longer than 3 and kept literally otherwise.  It is modelled by splitting the
input into maximal runs (`runSplit`) and encoding each run (`runEnc`).

`decompress` applies `compressed.replace(/(.)\d+/g, m => char.repeat(parseInt(m.slice(1))))`:
scanning left to right, a character matched by `.` followed directly by a
(greedily consumed) digit run is expanded to the character repeated the
parsed number of times; all other characters are copied.  It is modelled by
the explicit scanner state `DState`: `idle` (between matches), `pend c`
(`c` may head a match if a digit follows), `tok c acc` (inside the digit run
of a match for `c`, digits parsed so far give `acc`). -/

namespace Compression

/-- Does the JS regex `.` (no `s` flag) match this code unit?  It matches
everything except the four line terminators. -/
def isDot (c : Nat) : Bool := !(c = 10 || c = 13 || c = 8232 || c = 8233)

/-- ASCII digit, as matched by `\d`. -/
def isDigit (c : Nat) : Bool := 48 ≤ c && c ≤ 57

/-- Big-endian decimal digit characters of `n` (`n ≥ 1`), with explicit fuel
(any fuel `≥ n` gives the exact digits). -/
def decAux : Nat → Nat → List Nat
  | _, 0 => []
  | 0, _ => []
  | fuel + 1, n + 1 => decAux fuel ((n + 1) / 10) ++ [(n + 1) % 10 + 48]

/-- Decimal digit characters of `n`, as produced by JS `${n}`. -/
def decimalCodes (n : Nat) : List Nat := if n = 0 then [48] else decAux n n

/-- `parseInt` on a digit string. -/
def parseDigits (ds : List Nat) : Nat := ds.foldl (fun acc d => acc * 10 + (d - 48)) 0

/-- Split into maximal runs: `runSplit s = [(c₁,n₁),…]` with `s` the
concatenation of `nᵢ` copies of `cᵢ` and adjacent run characters distinct. -/
def runSplit : List Nat → List (Nat × Nat)
  | [] => []
  | c :: rest =>
      match runSplit rest with
      | [] => [(c, 1)]
      | (c', n) :: rs => if c = c' then (c, n + 1) :: rs else (c, 1) :: (c', n) :: rs

/-- Encoding of one maximal run under `/(.)\1+/g` replacement: a run longer
than 3 whose character is matched by `.` becomes `<char><length>`. -/
def runEnc (r : Nat × Nat) : List Nat :=
  if isDot r.1 ∧ r.2 > 3 then r.1 :: decimalCodes r.2 else List.replicate r.2 r.1

/-- `Compression.compress`. -/
def compress (s : List Nat) : List Nat := ((runSplit s).map runEnc).flatten

/-- Scanner state for `decompress` (see the section comment). -/
inductive DState where
  | idle
  | pend (c : Nat)
  | tok (c : Nat) (acc : Nat)

/-- The left-to-right scan of `/(.)\d+/g` replacement. -/
def decompGo : DState → List Nat → List Nat
  | .idle, [] => []
  | .pend c, [] => [c]
  | .tok c acc, [] => List.replicate acc c
  | .idle, x :: rest =>
      if isDot x then decompGo (.pend x) rest else x :: decompGo .idle rest
  | .pend c, x :: rest =>
      if isDigit x then decompGo (.tok c (x - 48)) rest
      else c :: (if isDot x then decompGo (.pend x) rest else x :: decompGo .idle rest)
  | .tok c acc, x :: rest =>
      if isDigit x then decompGo (.tok c (acc * 10 + (x - 48))) rest
      else
        List.replicate acc c ++
          (if isDot x then decompGo (.pend x) rest else x :: decompGo .idle rest)

/-- `Compression.decompress`. -/
def decompress (s : List Nat) : List Nat := decompGo .idle s

end Compression

example : Compression.compress (strC "aaaabbbccccc") = strC "a4bbbc5" := by decide
example : Compression.decompress (strC "a4bbbc5") = strC "aaaabbbccccc" := by decide
example : Compression.compress (strC "aaaaaaaaaaaa") = strC "a12" := by decide
example : Compression.decompress (strC "a12") = strC "aaaaaaaaaaaa" := by decide
-- the ambiguous edge case: a literal digit after a character is lossy
example : Compression.decompress (strC "a1") = strC "a" := by decide
example : Compression.decompress (strC "BQ0=") = strC "B=" := by decide
example : Compression.decompress (strC "x1b4") = strC "xbbbb" := by decide

/-! ## Data model of `TinyKVStorePro`

`this.store` and `this.cache` are JS `Map`s (iteration in insertion order,
`set` of an existing key keeps its position), `this.encryptedKeys` a JS
`Set`, `this.wal` an array.  The persisted blob written by `persist()` is a
function of these fields, so it is modelled as the derived view
`persistedWal` rather than as a separate state component. -/

/-- JS `Map` lookup. -/
def mapGet {V : Type} (m : List (JSVal × V)) (k : JSVal) : Option V :=
  match m with
  | [] => none
  | (k', v) :: rest => if JSVal.beq k' k then some v else mapGet rest k

/-- JS `Map.has`. -/
def mapHas {V : Type} (m : List (JSVal × V)) (k : JSVal) : Bool :=
  (mapGet m k).isSome

/-- JS `Map.set`: overwrite in place when the key is present (keeping its
insertion-order position), append otherwise. -/
def mapSet {V : Type} (m : List (JSVal × V)) (k : JSVal) (v : V) : List (JSVal × V) :=
  match m with
  | [] => [(k, v)]
  | (k', v') :: rest =>
      if JSVal.beq k' k then (k', v) :: rest else (k', v') :: mapSet rest k v

/-- JS `Map.delete` / `Set.delete`. -/
def mapDelete {V : Type} (m : List (JSVal × V)) (k : JSVal) : List (JSVal × V) :=
  match m with
  | [] => []
  | (k', v') :: rest =>
      if JSVal.beq k' k then rest else (k', v') :: mapDelete rest k

/-- JS `Set.has`. -/
def setHas (s : List JSVal) (k : JSVal) : Bool := s.any (JSVal.beq · k)

/-- JS `Set.add`: no-op when present, append otherwise. -/
def setAdd (s : List JSVal) (k : JSVal) : List JSVal :=
  if setHas s k then s else s ++ [k]

/-- JS `Set.delete`. -/
def setDelete (s : List JSVal) (k : JSVal) : List JSVal :=
  s.filter fun x => !JSVal.beq x k

/-- The error kinds a modelled operation can throw. -/
inductive JSErr where
  | invalidArg   -- `throw new Error('Invalid key or value')`
  | typeErr      -- a TypeError from calling a method on a non-object
  | b64Err       -- `InvalidCharacterError` from `btoa`
  | parseErr     -- a SyntaxError from `JSON.parse`
  | unsupported  -- `throw new Error('Unsupported format')`
deriving DecidableEq

deriving instance DecidableEq for Except

/-- The `options` argument of `put` (`{ttl?, encrypted?, compress?}`).
`ttl := some v` models an options object whose `ttl` property is the JS
value `v`; `none` models an absent property (`undefined`). -/
structure PutOptions where
  ttl : Option JSVal := none
  encrypted : Bool := false
  compress : Bool := false
deriving DecidableEq

/-- One stored record (`{value, timestamp, encrypted, compressed, expiry?}`). -/
structure Entry where
  value : JSVal
  timestamp : Nat
  encrypted : Bool
  compressed : Bool
  expiry : Option Nat := none
deriving DecidableEq

/-- The operation kind of a write-log record. -/
inductive WalOp where
  | PUT
  | DELETE
deriving DecidableEq

/-- One write-log record (`{timestamp, op, key, value?, options?}`; the
`value` and `options` fields are present only on PUT records). -/
structure WalRec where
  timestamp : Nat
  op : WalOp
  key : JSVal
  value : Option JSVal := none
  options : Option PutOptions := none
deriving DecidableEq

/-- The mutable state of a `TinyKVStorePro` instance (statistics and the
monitoring timer omitted, see the file header). -/
structure KVState where
  store : List (JSVal × Entry)
  wal : List WalRec
  cache : List (JSVal × Entry)
  cacheSize : Nat
  encryptedKeys : List JSVal
  timers : List (Nat × JSVal)
deriving DecidableEq

/-- The state built by the constructor when `localStorage` holds no previous
blob (`loadFromStorage` finds nothing and leaves the fields untouched). -/
def initState : KVState :=
  { store := [], wal := [], cache := [], cacheSize := 100, encryptedKeys := [], timers := [] }

namespace TinyKVStorePro

/-- `Crypto.encrypt(value)` as invoked from `put` on an arbitrary JS value:
a string is XORed and base64-encoded (`b64Err` when a code unit exceeds
255), `null`/`undefined` throw a TypeError on `.length`, a nonempty array
has a `length` but no `charCodeAt` and throws, and the remaining values have
no usable `length`, so the loop body never runs and `btoa('')` returns the
empty string.  (An object carrying its own numeric `length` property is not
modelled.) -/
def jsEncrypt : JSVal → Except JSErr (List Nat)
  | .vstr s => match Crypto.encrypt s with
      | some e => .ok e
      | none => .error .b64Err
  | .vnull => .error .typeErr
  | .vundef => .error .typeErr
  | .varr (_ :: _) => .error .typeErr
  | _ => .ok []

/-- Truthiness test of `entry.expiry && entry.expiry < Date.now()`. -/
def jsExpired (expiry : Option Nat) (now : Nat) : Bool :=
  match expiry with
  | some e => e ≠ 0 && e < now
  | none => false

/-- Does `options.ttl && options.ttl > 0` hold?  (Only numeric `ttl` values
are modelled; JS would additionally coerce strings in the comparison.) -/
def ttlActive (ttl : Option JSVal) : Bool :=
  match ttl with
  | some (.vnum m p) => JSVal.truthy (.vnum m p) && 0 < m
  | _ => false

/-- `options.ttl * 1000` in milliseconds, rounded down to the clock tick. -/
def ttlMs (ttl : Option JSVal) : Nat :=
  match ttl with
  | some (.vnum m p) =>
      if 0 ≤ p then (m * 1000 * 10 ^ p.toNat).toNat
      else ((m * 1000) / 10 ^ (-p).toNat).toNat
  | _ => 0

/-- `this.processValue(value, entry)`: undo compression, then encryption.
Decompressing a non-string throws (`.replace` is not a function); the
encrypted branch is only ever reached with a string value (encryption always
stores a string), for which a failing `atob` yields `null`. -/
def processValue (value : JSVal) (entry : Entry) : Except JSErr JSVal := do
  let v₁ ← if entry.compressed then
      match value with
      | .vstr s => pure (JSVal.vstr (Compression.decompress s))
      | _ => throw JSErr.typeErr
    else pure value
  if entry.encrypted then
    match v₁ with
    | .vstr s => match Crypto.decrypt s with
        | some d => pure (JSVal.vstr d)
        | none => pure JSVal.vnull
    | _ => throw JSErr.typeErr
  else pure v₁

/-- `this.updateCache(key, entry)`: evict the first-inserted key when at
capacity, then `set`. -/
def updateCache (s : KVState) (key : JSVal) (entry : Entry) : KVState :=
  let c :=
    if s.cache.length ≥ s.cacheSize then
      match s.cache.head? with
      | some (fk, _) => mapDelete s.cache fk
      | none => s.cache
    else s.cache
  { s with cache := mapSet c key entry }

/-- `this.put(key, value, options)`.  The pair returned is the result of the
call (`{success: true}` on success, the thrown error otherwise) together
with the state as left behind by the call. -/
def put (s : KVState) (now : Nat) (key value : JSVal) (opts : PutOptions) :
    Except JSErr Unit × KVState :=
  if !JSVal.truthy key || value = JSVal.vundef then (.error .invalidArg, s)
  else
    let enc : Except JSErr (JSVal × List JSVal) :=
      if opts.encrypted then
        match jsEncrypt value with
        | .ok e => .ok (JSVal.vstr e, setAdd s.encryptedKeys key)
        | .error err => .error err
      else .ok (value, s.encryptedKeys)
    match enc with
    | .error err => (.error err, s)
    | .ok (sv₁, encKeys) =>
        let storedValue :=
          match sv₁ with
          | .vstr str => if opts.compress then JSVal.vstr (Compression.compress str) else .vstr str
          | v => v
        let wal' := s.wal ++
          [{ timestamp := now, op := .PUT, key := key, value := some storedValue,
             options := some opts }]
        let withTtl := ttlActive opts.ttl
        let entry : Entry :=
          { value := storedValue, timestamp := now, encrypted := opts.encrypted,
            compressed := opts.compress,
            expiry := if withTtl then some (now + ttlMs opts.ttl) else none }
        let timers' :=
          if withTtl then s.timers ++ [(now + ttlMs opts.ttl, key)] else s.timers
        let s₁ := { s with
          store := mapSet s.store key entry, wal := wal',
          encryptedKeys := encKeys, timers := timers' }
        (.ok (), updateCache s₁ key entry)

/-- `this.delete(key)`: unconditionally appends a DELETE record, then
removes the key from store, cache and encrypted-key set; reports whether the
key existed in the store. -/
def deleteOp (s : KVState) (now : Nat) (key : JSVal) : Bool × KVState :=
  let existed := mapHas s.store key
  (existed,
    { s with
      wal := s.wal ++ [{ timestamp := now, op := .DELETE, key := key }],
      store := mapDelete s.store key,
      cache := mapDelete s.cache key,
      encryptedKeys := setDelete s.encryptedKeys key })

/-- `this.get(key)`: cache first (a hit neither reorders nor rewrites the
cache), lazily deleting an expired entry; on a store hit the entry is copied
into the cache before decoding. -/
def get (s : KVState) (now : Nat) (key : JSVal) : Except JSErr JSVal × KVState :=
  match mapGet s.cache key with
  | some entry =>
      if jsExpired entry.expiry now then (.ok .vnull, (deleteOp s now key).2)
      else
        match processValue entry.value entry with
        | .ok v => (.ok v, s)
        | .error e => (.error e, s)
  | none =>
      match mapGet s.store key with
      | none => (.ok .vnull, s)
      | some entry =>
          if jsExpired entry.expiry now then (.ok .vnull, (deleteOp s now key).2)
          else
            let s' := updateCache s key entry
            match processValue entry.value entry with
            | .ok v => (.ok v, s')
            | .error e => (.error e, s')

/-- `this.exists(key)`: store only (the cache is not consulted), with the
same lazy deletion of expired entries. -/
def existsKey (s : KVState) (now : Nat) (key : JSVal) : Bool × KVState :=
  match mapGet s.store key with
  | none => (false, s)
  | some entry =>
      if jsExpired entry.expiry now then (false, (deleteOp s now key).2)
      else (true, s)

/-- `this.clear()`: empties store, cache, encrypted keys, write log and
query history.  Pending `setTimeout` deletions are not cancelled. -/
def clearOp (s : KVState) : KVState :=
  { s with store := [], cache := [], encryptedKeys := [], wal := [] }

/-- Running the deferred deletion callback `() => this.delete(key)` that
`put` scheduled with `setTimeout`, at current time `now`. -/
def runTimer (s : KVState) (now : Nat) (key : JSVal) : KVState :=
  (deleteOp s now key).2

/-- The write-log tail `this.wal.slice(-1000)` that `persist()` stores into
the `localStorage` blob after every mutation. -/
def persistedWal (s : KVState) : List WalRec :=
  s.wal.drop (s.wal.length - 1000)

end TinyKVStorePro

section SanityChecks
open TinyKVStorePro

-- put then get round-trips a plain value
example :
    (get (put initState 0 (.vstr (strC "k")) (.vstr (strC "hello")) {}).2 5 (.vstr (strC "k"))).1 =
      .ok (.vstr (strC "hello")) := by decide

-- encrypted put stores the base64 form and get decodes it
example :
    (get (put initState 0 (.vstr (strC "k")) (.vstr (strC "ab")) { encrypted := true }).2 5
        (.vstr (strC "k"))).1 = .ok (.vstr (strC "ab")) := by decide

-- the encrypted+compressed counterexample input: get returns null, not 'ah'
example :
    (get (put initState 0 (.vstr (strC "k")) (.vstr (strC "ah"))
          { encrypted := true, compress := true }).2 5 (.vstr (strC "k"))).1 =
      .ok .vnull := by decide

end SanityChecks

/-! ## Batch executor (`this.batch(operations)`) -/

namespace TinyKVStorePro

/-- `op.op.toUpperCase()` (ASCII letters; no claim uses non-ASCII tags). -/
def toUpper (s : List Nat) : List Nat :=
  s.map fun c => if 97 ≤ c ∧ c ≤ 122 then c - 32 else c

/-- One caller-supplied batch operation `{op, key, value?, ttl?}`; an absent
property is `vundef`. -/
structure BatchOp where
  op : List Nat
  key : JSVal := .vundef
  value : JSVal := .vundef
  ttl : JSVal := .vundef
deriving DecidableEq

/-- The per-operation result object pushed by the `switch`. -/
inductive OpRes where
  | putRes                      -- `{success: true, latency}`
  | getRes (value : JSVal)      -- `{success: true, value}`
  | delRes (success : Bool)     -- `{success: existed, latency}`
  | existsRes (found : Bool)    -- `{success: true, exists}`
  | unknownRes                  -- `{success: false, error: 'Unknown operation'}`
deriving DecidableEq

/-- One element of the collected `results` array (`{...op, result}`). -/
structure BatchItem where
  op : BatchOp
  result : OpRes
deriving DecidableEq

/-- Apply a single batch operation: the `switch` body.  The returned state
is the state at the end of the dispatch (for a throwing `put` that is the
unchanged input state, since `put` throws before mutating anything). -/
def applyBatchOp (s : KVState) (now : Nat) (b : BatchOp) :
    Except JSErr OpRes × KVState :=
  if toUpper b.op = strC "PUT" then
    match put s now b.key b.value { ttl := some b.ttl } with
    | (.ok _, s') => (.ok .putRes, s')
    | (.error e, s') => (.error e, s')
  else if toUpper b.op = strC "GET" then
    match get s now b.key with
    | (.ok v, s') => (.ok (.getRes v), s')
    | (.error e, s') => (.error e, s')
  else if toUpper b.op = strC "DELETE" then
    let (ok, s') := deleteOp s now b.key
    (.ok (.delRes ok), s')
  else if toUpper b.op = strC "EXISTS" then
    let (found, s') := existsKey s now b.key
    (.ok (.existsRes found), s')
  else
    (.ok .unknownRes, s)

/-- The `for`/`try` loop of `batch`: apply the operations in order,
accumulating one result per operation, stopping at the first thrown error
and keeping the results (and state) accumulated so far. -/
def batchRun (s : KVState) (now : Nat) :
    List BatchOp → List BatchItem → List BatchItem × KVState × Option JSErr
  | [], acc => (acc, s, none)
  | b :: rest, acc =>
      match applyBatchOp s now b with
      | (.ok r, s') => batchRun s' now rest (acc ++ [{ op := b, result := r }])
      | (.error e, s') => (acc, s', some e)

/-- The object returned by `batch` (timing fields omitted). -/
structure BatchResult where
  success : Bool
  results : List BatchItem
  error : Option JSErr := none
deriving DecidableEq

/-- `this.batch(operations)`. -/
def batch (s : KVState) (now : Nat) (ops : List BatchOp) : BatchResult × KVState :=
  match batchRun s now ops [] with
  | (items, s', none) => ({ success := true, results := items }, s')
  | (items, s', some e) => ({ success := false, results := items, error := some e }, s')

end TinyKVStorePro

/-! ## JSON values and `JSON.parse`

The importer's `json` branch calls the `JSON.parse` builtin.  It is modelled
by a recursive-descent parser producing `JSVal`s.  JSON numbers are read as
exact rationals; since JS represents them in binary floating point the two
differ only by float rounding, which no claim exercises. -/

namespace JsonParse

/-- JSON insignificant whitespace. -/
def isJsonWs (c : Nat) : Bool := c = 32 || c = 9 || c = 10 || c = 13

/-- Skip insignificant whitespace. -/
def skipWs (cs : List Nat) : List Nat := cs.dropWhile isJsonWs

/-- Hex digit value. -/
def hexVal (c : Nat) : Option Nat :=
  if 48 ≤ c ∧ c ≤ 57 then some (c - 48)
  else if 97 ≤ c ∧ c ≤ 102 then some (c - 87)
  else if 65 ≤ c ∧ c ≤ 70 then some (c - 55)
  else none

/-- Parse the remainder of a JSON string literal (the opening quote already
consumed), handling the escape sequences of the JSON grammar and rejecting
raw control characters. -/
def parseString : List Nat → Option (List Nat × List Nat)
  | [] => none
  | 34 :: rest => some ([], rest)
  | 92 :: e :: rest =>
      let simple : Option Nat :=
        if e = 34 then some 34 else if e = 92 then some 92
        else if e = 47 then some 47 else if e = 98 then some 8
        else if e = 102 then some 12 else if e = 110 then some 10
        else if e = 114 then some 13 else if e = 116 then some 9 else none
      match simple with
      | some c => (parseString rest).map fun (s, r) => (c :: s, r)
      | none =>
          if e = 117 then
            match rest with
            | h1 :: h2 :: h3 :: h4 :: rest' =>
                match hexVal h1, hexVal h2, hexVal h3, hexVal h4 with
                | some a, some b, some c, some d =>
                    (parseString rest').map fun (s, r) =>
                      ((((a * 16 + b) * 16 + c) * 16 + d) :: s, r)
                | _, _, _, _ => none
            | _ => none
          else none
  | c :: rest =>
      if c < 32 then none
      else (parseString rest).map fun (s, r) => (c :: s, r)

/-- Parse an unsigned decimal digit run as a pair (value, digit count). -/
def parseNatDigits (cs : List Nat) : Nat × Nat × List Nat :=
  let ds := cs.takeWhile Compression.isDigit
  (Compression.parseDigits ds, ds.length, cs.dropWhile Compression.isDigit)

/-- Parse a JSON number (integer part, optional fraction, optional
exponent) into a canonical decimal `JSVal.mkNum`. -/
def parseNumber (cs : List Nat) : Option (JSVal × List Nat) :=
  let (neg, cs₁) := match cs with
    | 45 :: rest => (true, rest)
    | _ => (false, cs)
  match cs₁ with
  | c :: _ =>
      if !Compression.isDigit c then none
      else if c = 48 ∧ (cs₁.drop 1).head?.elim false Compression.isDigit then none
      else
        let (ip, _, cs₂) := parseNatDigits cs₁
        match cs₂ with
        | 46 :: rest =>
            let (fv, fn, rest') := parseNatDigits rest
            -- a '.' not followed by a digit is a syntax error
            if fn = 0 then none
            else finish neg (ip * 10 ^ fn + fv) (-(fn : Int)) rest'
        | _ => finish neg ip 0 cs₂
  | [] => none
where
  /-- Apply an optional exponent and the sign to mantissa `m` times `10 ^ p`. -/
  finish (neg : Bool) (m : Nat) (p : Int) (cs : List Nat) : Option (JSVal × List Nat) :=
    let signed : Int := if neg then -(m : Int) else (m : Int)
    match cs with
    | e :: rest =>
        if e = 101 ∨ e = 69 then
          let (eneg, rest₁) := match rest with
            | 45 :: r => (true, r)
            | 43 :: r => (false, r)
            | _ => (false, rest)
          let (ev, en, rest₂) := parseNatDigits rest₁
          if en = 0 then none
          else some (JSVal.mkNum signed (p + if eneg then -(ev : Int) else (ev : Int)), rest₂)
        else some (JSVal.mkNum signed p, cs)
    | [] => some (JSVal.mkNum signed p, cs)

/-- What the parser is currently reading: one value, the elements of an
array after `[`, or the members of an object after `{` (`first` while no
element has been read yet). -/
inductive PMode where
  | val
  | arr (first : Bool)
  | obj (first : Bool)

/-- Recursive-descent JSON parser; the fuel only bounds the recursion and is
chosen larger than twice the input length, which every parse needs at most. -/
def parseCore : Nat → PMode → List Nat → Option (JSVal × List Nat)
  | 0, _, _ => none
  | fuel + 1, .val, cs =>
      match skipWs cs with
      | 110 :: 117 :: 108 :: 108 :: rest => some (.vnull, rest)
      | 116 :: 114 :: 117 :: 101 :: rest => some (.vbool true, rest)
      | 102 :: 97 :: 108 :: 115 :: 101 :: rest => some (.vbool false, rest)
      | 34 :: rest => (parseString rest).map fun (s, r) => (JSVal.vstr s, r)
      | 91 :: rest => parseCore fuel (.arr true) (skipWs rest)
      | 123 :: rest => parseCore fuel (.obj true) (skipWs rest)
      | cs' => parseNumber cs'
  | _ + 1, .arr true, 93 :: rest => some (.varr [], rest)
  | fuel + 1, .arr _, cs =>
      match parseCore fuel .val cs with
      | none => none
      | some (v, r) =>
          match skipWs r with
          | 44 :: r' =>
              match parseCore fuel (.arr false) (skipWs r') with
              | some (.varr xs, r'') => some (.varr (v :: xs), r'')
              | _ => none
          | 93 :: r' => some (.varr [v], r')
          | _ => none
  | _ + 1, .obj true, 125 :: rest => some (.vobj [], rest)
  | fuel + 1, .obj _, cs =>
      match cs with
      | 34 :: rest =>
          match parseString rest with
          | none => none
          | some (k, r) =>
              match skipWs r with
              | 58 :: r' =>
                  match parseCore fuel .val r' with
                  | none => none
                  | some (v, r'') =>
                      match skipWs r'' with
                      | 44 :: r₃ =>
                          match parseCore fuel (.obj false) (skipWs r₃) with
                          | some (.vobj fs, r₄) => some (.vobj ((k, v) :: fs), r₄)
                          | _ => none
                      | 125 :: r₃ => some (.vobj [(k, v)], r₃)
                      | _ => none
              | _ => none
      | _ => none

/-- `JSON.parse(data)`: `none` models the thrown `SyntaxError`. -/
def jsonParse (data : List Nat) : Option JSVal :=
  match parseCore (2 * data.length + 2) .val data with
  | some (v, rest) => if skipWs rest = [] then some v else none
  | none => none

end JsonParse

example : JsonParse.jsonParse (strC "[\x7b\x22key\x22:\x22a\x22,\x22value\x22:null\x7d, 2.5e1]") =
    some (.varr [.vobj [(strC "key", .vstr (strC "a")), (strC "value", .vnull)], .vnum 25 0]) := by
  decide
example : JsonParse.jsonParse (strC "[1,") = none := by decide

/-! ## Snapshot I/O: `this.import(data, format)`

Parsing per format: `json` is `JSON.parse` (a non-array parse result makes
the subsequent `entries.forEach` throw inside the same `try`, so it is
folded into the parse-failure case); `csv` drops the header line, splits
each line at commas and trims/unquotes the first two fields; `txt` splits
each line at `=` and trims the first two parts.  Each parsed record with a
truthy `key` and (short-circuit) truthy `value` is applied via
`put(key, value, {ttl: entry.ttl || null})` and counted. -/

namespace TinyKVStorePro

/-- JS `String.prototype.split` with a single-character separator. -/
def splitOnChar (sep : Nat) : List Nat → List (List Nat)
  | [] => [[]]
  | c :: rest =>
      match splitOnChar sep rest with
      | h :: t => if c = sep then [] :: h :: t else (c :: h) :: t
      | [] => [[c]]

/-- Whitespace removed by `String.prototype.trim` (ASCII part; the claims
use no exotic whitespace). -/
def isTrimWs (c : Nat) : Bool := c = 9 || c = 10 || c = 11 || c = 12 || c = 13 || c = 32

/-- `s.trim()`. -/
def trimJS (s : List Nat) : List Nat :=
  ((s.dropWhile isTrimWs).reverse.dropWhile isTrimWs).reverse

/-- `s.replace(/^"|"$/g, '')`: drop one leading and one trailing quote. -/
def stripQuotes (s : List Nat) : List Nat :=
  let s₁ := match s with
    | 34 :: rest => rest
    | _ => s
  match s₁.reverse with
  | 34 :: rest => rest.reverse
  | _ => s₁

/-- One parsed CSV record `{key, value}` (absent second field gives an
`undefined` value, as in JS destructuring). -/
def csvRecord (line : List Nat) : JSVal :=
  let parts := (splitOnChar 44 line).map fun f => stripQuotes (trimJS f)
  .vobj [(strC "key", .vstr (parts.headD [])),
         (strC "value", match parts.get? 1 with | some v => .vstr v | none => .vundef)]

/-- The `csv` parse: skip the header line, one record per remaining line. -/
def csvParse (data : List Nat) : List JSVal :=
  ((splitOnChar 10 data).drop 1).map csvRecord

/-- One parsed TXT record from a `key = value` line. -/
def txtRecord (line : List Nat) : JSVal :=
  let parts := (splitOnChar 61 line).map trimJS
  .vobj [(strC "key", .vstr (parts.headD [])),
         (strC "value", match parts.get? 1 with | some v => .vstr v | none => .vundef)]

/-- The `txt` parse: one record per line, no header. -/
def txtParse (data : List Nat) : List JSVal :=
  (splitOnChar 10 data).map txtRecord

/-- JS property access `v.name`: objects yield the property (last duplicate
wins) or `undefined`; `null`/`undefined` throw a TypeError; primitives and
arrays have no such property and yield `undefined`. -/
def jsField (v : JSVal) (name : List Nat) : Except JSErr JSVal :=
  match v with
  | .vobj fs =>
      match fs.reverse.find? fun f => f.1 = name with
      | some f => .ok f.2
      | none => .ok .vundef
  | .vnull => .error .typeErr
  | .vundef => .error .typeErr
  | _ => .ok (.vundef)

/-- The parse phase of `import`: errors are the thrown-and-caught parse
failures (including an unsupported format and, for `json`, a parse result
that is not an array, whose `forEach` throws before any record is applied). -/
def parseImport (fmt data : List Nat) : Except JSErr (List JSVal) :=
  if fmt = strC "json" then
    match JsonParse.jsonParse data with
    | some (.varr xs) => .ok xs
    | some _ => .error .typeErr
    | none => .error .parseErr
  else if fmt = strC "csv" then .ok (csvParse data)
  else if fmt = strC "txt" then .ok (txtParse data)
  else .error .unsupported

/-- The `entries.forEach` loop of `import`: apply each record with truthy
key and value via `put`, counting the applied ones; a thrown field access
(a `null` array element) aborts the loop, keeping the effects so far. -/
def importLoop (now : Nat) : KVState → List JSVal → Nat → Except JSErr Nat × KVState
  | s, [], acc => (.ok acc, s)
  | s, e :: rest, acc =>
      match jsField e (strC "key") with
      | .error err => (.error err, s)
      | .ok k =>
          if JSVal.truthy k then
            match jsField e (strC "value") with
            | .error err => (.error err, s)
            | .ok v =>
                if JSVal.truthy v then
                  -- `entry.ttl` cannot throw here: field access on `e` already succeeded
                  let t := match jsField e (strC "ttl") with
                    | .ok t => t
                    | .error _ => .vundef
                  let s' := (put s now k v
                    { ttl := some (if JSVal.truthy t then t else .vnull) }).2
                  importLoop now s' rest (acc + 1)
                else importLoop now s rest acc
          else importLoop now s rest acc

/-- The object returned by `import`: `{success: true, imported, total}` or
`{success: false, error}`. -/
structure ImportResult where
  success : Bool
  imported : Nat := 0
  total : Nat := 0
  error : Option JSErr := none
deriving DecidableEq

/-- `this.import(data, format)`. -/
def importData (s : KVState) (now : Nat) (data fmt : List Nat) : ImportResult × KVState :=
  match parseImport fmt data with
  | .error e => ({ success := false, error := some e }, s)
  | .ok entries =>
      match importLoop now s entries 0 with
      | (.ok n, s') => ({ success := true, imported := n, total := entries.length }, s')
      | (.error e, s') => ({ success := false, error := some e }, s')

end TinyKVStorePro

section SanityChecksImport
open TinyKVStorePro

example :
    (importData initState 0 (strC "Key,Value,Timestamp,Encrypted,TTL\n\x22a\x22,\x22b\x22")
        (strC "csv")).1 = { success := true, imported := 1, total := 1 } := by decide

example :
    (get (importData initState 0 (strC "Key,Value,Timestamp,Encrypted,TTL\n\x22a\x22,\x22b\x22")
          (strC "csv")).2 3 (.vstr (strC "a"))).1 = .ok (.vstr (strC "b")) := by decide

-- a present-but-empty value is skipped
example :
    (importData initState 0 (strC "Key,Value,Timestamp,Encrypted,TTL\n\x22a\x22,\x22\x22")
        (strC "csv")).1 = { success := true, imported := 0, total := 1 } := by decide

-- a json parse failure leaves the state unchanged
example :
    (importData initState 0 (strC "[\x7b\x22key\x22") (strC "json")) =
      ({ success := false, error := some .parseErr }, initState) := by decide

example :
    (importData initState 0 (strC "alpha = 1\nbeta = 2") (strC "txt")).1 =
      { success := true, imported := 2, total := 2 } := by decide

end SanityChecksImport

/-! ## General lemmas about the map and set model -/

theorem JSVal.beq_eq_true_iff (a b : JSVal) : JSVal.beq a b = true ↔ a = b :=
  ⟨JSVal.eq_of_beq, fun h => h ▸ JSVal.beq_refl a⟩

theorem JSVal.beq_eq_false_iff (a b : JSVal) : JSVal.beq a b = false ↔ a ≠ b := by
  rw [← Bool.not_eq_true, not_iff_not]
  exact JSVal.beq_eq_true_iff a b

theorem mapGet_mapSet_self {V : Type} (m : List (JSVal × V)) (k : JSVal) (v : V) :
    mapGet (mapSet m k v) k = some v := by
  induction m with
  | nil => simp [mapGet, mapSet, JSVal.beq_refl]
  | cons p rest ih =>
      obtain ⟨k', v'⟩ := p
      by_cases h : k' = k
      · simp [mapGet, mapSet, h, JSVal.beq_refl]
      · simp [mapGet, mapSet, (JSVal.beq_eq_false_iff k' k).2 h, ih]

theorem mapGet_mapSet_ne {V : Type} (m : List (JSVal × V)) (k k' : JSVal) (v : V)
    (h : k ≠ k') : mapGet (mapSet m k v) k' = mapGet m k' := by
  induction m with
  | nil => simp [mapGet, mapSet, (JSVal.beq_eq_false_iff k k').2 h]
  | cons p rest ih =>
      obtain ⟨k₀, v₀⟩ := p
      by_cases h₀ : k₀ = k
      · subst h₀
        simp [mapGet, mapSet, JSVal.beq_refl, (JSVal.beq_eq_false_iff k₀ k').2 h]
      · by_cases h₁ : k₀ = k'
        · subst h₁
          simp [mapGet, mapSet, (JSVal.beq_eq_false_iff k₀ k).2 h₀, JSVal.beq_refl]
        · simp [mapGet, mapSet, (JSVal.beq_eq_false_iff k₀ k).2 h₀,
            (JSVal.beq_eq_false_iff k₀ k').2 h₁, ih]

theorem mapGet_eq_none_of_not_mem {V : Type} (m : List (JSVal × V)) (k : JSVal)
    (h : k ∉ m.map Prod.fst) : mapGet m k = none := by
  induction m with
  | nil => simp [mapGet]
  | cons p rest ih =>
      obtain ⟨k₀, v₀⟩ := p
      simp only [List.map_cons, List.mem_cons] at h
      push_neg at h
      simp [mapGet, (JSVal.beq_eq_false_iff k₀ k).2 (Ne.symm h.1), ih h.2]

theorem mapGet_mapDelete_self {V : Type} (m : List (JSVal × V)) (k : JSVal)
    (hm : (m.map Prod.fst).Nodup) : mapGet (mapDelete m k) k = none := by
  induction m with
  | nil => simp [mapGet, mapDelete]
  | cons p rest ih =>
      obtain ⟨k₀, v₀⟩ := p
      simp only [List.map_cons, List.nodup_cons] at hm
      by_cases h₀ : k₀ = k
      · subst h₀
        simp only [mapDelete, JSVal.beq_refl, if_pos rfl]
        exact mapGet_eq_none_of_not_mem rest k₀ hm.1
      · simp [mapDelete, (JSVal.beq_eq_false_iff k₀ k).2 h₀, mapGet, ih hm.2]

theorem mapGet_mapDelete_ne {V : Type} (m : List (JSVal × V)) (k k' : JSVal)
    (h : k ≠ k') : mapGet (mapDelete m k) k' = mapGet m k' := by
  induction m with
  | nil => simp [mapGet, mapDelete]
  | cons p rest ih =>
      obtain ⟨k₀, v₀⟩ := p
      by_cases h₀ : k₀ = k
      · subst h₀
        simp [mapDelete, JSVal.beq_refl, mapGet, (JSVal.beq_eq_false_iff k₀ k').2 h]
      · simp [mapDelete, (JSVal.beq_eq_false_iff k₀ k).2 h₀, mapGet, ih]

/-! ## Lemmas characterising `put` -/

namespace TinyKVStorePro

theorem jsEncrypt_ne_invalidArg (v : JSVal) (e : JSErr) (h : jsEncrypt v = .error e) :
    e ≠ .invalidArg := by
  cases v <;> simp [jsEncrypt] at h <;> try simp [← h]
  case vstr s =>
    cases hc : Crypto.encrypt s <;> simp [hc] at h
    simp [← h]
  case varr xs =>
    cases xs with
    | nil => simp [jsEncrypt] at h
    | cons a t =>
        simp [jsEncrypt] at h
        simp [← h]

/-- A `put` whose arguments pass validation and that does not encrypt. -/
theorem put_ok (s : KVState) (now : Nat) (key v : JSVal) (opts : PutOptions)
    (hk : JSVal.truthy key = true) (hv : v ≠ .vundef) (henc : opts.encrypted = false) :
    put s now key v opts =
      (let stored : JSVal := match v with
        | .vstr str => if opts.compress then .vstr (Compression.compress str) else .vstr str
        | v => v
      let entry : Entry :=
        { value := stored, timestamp := now, encrypted := false,
          compressed := opts.compress,
          expiry := if ttlActive opts.ttl then some (now + ttlMs opts.ttl) else none }
      (.ok (), updateCache
        { s with
          store := mapSet s.store key entry,
          wal := s.wal ++ [{ timestamp := now, op := .PUT, key := key,
                             value := some stored, options := some opts }],
          timers := if ttlActive opts.ttl then s.timers ++ [(now + ttlMs opts.ttl, key)]
            else s.timers }
        key entry)) := by
  unfold put
  rw [if_neg]
  · simp only [henc, Bool.false_eq_true, if_false]
    cases v <;> simp_all
  · simp [hk, hv]

/-- `put` reports `InvalidArgument` exactly on a falsy key or `undefined`
value. -/
theorem put_invalidArg_iff (s : KVState) (now : Nat) (key v : JSVal) (opts : PutOptions) :
    (put s now key v opts).1 = .error .invalidArg ↔
      (JSVal.truthy key = false ∨ v = .vundef) := by
  unfold put
  by_cases hc : (!JSVal.truthy key || v = JSVal.vundef) = true
  · rw [if_pos hc]
    simpa using hc
  · rw [if_neg hc]
    simp only [Bool.or_eq_true, Bool.not_eq_eq_eq_not, Bool.not_true, decide_eq_true_eq] at hc
    push_neg at hc
    constructor
    · intro h
      by_cases he : opts.encrypted
      · simp only [he, if_true] at h
        cases hj : jsEncrypt v with
        | ok e => simp [hj] at h
        | error err =>
            simp only [hj] at h
            exact absurd (show err = .invalidArg by simpa using h)
              (jsEncrypt_ne_invalidArg v err hj)
      · simp [he] at h
    · intro h
      rcases h with h | h
      · exact absurd h (by simp [hc.1])
      · exact absurd h hc.2

/-- Any thrown `put` leaves the state exactly as it was. -/
theorem put_error_state (s : KVState) (now : Nat) (key v : JSVal) (opts : PutOptions)
    (e : JSErr) (h : (put s now key v opts).1 = .error e) :
    (put s now key v opts).2 = s := by
  unfold put at h ⊢
  by_cases hc : (!JSVal.truthy key || v = JSVal.vundef) = true
  · rw [if_pos hc]
  · rw [if_neg hc] at h ⊢
    by_cases he : opts.encrypted
    · simp only [he, if_true] at h ⊢
      cases hj : jsEncrypt v with
      | ok enc => simp [hj] at h
      | error err => simp [hj]
    · simp [he] at h

end TinyKVStorePro

/-! ## Claims C8 and C10 -/

open TinyKVStorePro

/-- C8: `put(key, value, options)` fails with `InvalidArgument` exactly when
the (string) key is empty or the value is absent (`undefined`); the error is
the synchronous result of the call, and any failing `put` leaves the state —
store, cache, write log, encrypted-key set (and timers) — unchanged. -/
theorem C8_put_validation (s : KVState) (now : Nat) (ks : List Nat) (v : JSVal)
    (opts : PutOptions) :
    ((put s now (.vstr ks) v opts).1 = .error .invalidArg ↔ (ks = [] ∨ v = .vundef)) ∧
    (∀ e : JSErr, (put s now (.vstr ks) v opts).1 = .error e →
      (put s now (.vstr ks) v opts).2 = s) := by
  constructor
  · rw [put_invalidArg_iff]
    simp [JSVal.truthy]
  · exact fun e h => put_error_state s now (.vstr ks) v opts e h

/-- Witness for C8 at the empty key. -/
theorem C8_put_validation_witness :
    (put initState 0 (.vstr []) (.vstr (strC "v")) {}).1 = .error .invalidArg ∧
    (put initState 0 (.vstr []) (.vstr (strC "v")) {}).2 = initState :=
  ⟨(C8_put_validation initState 0 [] (.vstr (strC "v")) {}).1.2 (Or.inl rfl),
   (C8_put_validation initState 0 [] (.vstr (strC "v")) {}).2 .invalidArg (by decide)⟩

/-- C10 (implicit): for a non-empty key, `put(k, null)` succeeds — only an
`undefined` (absent) value is rejected by validation — and a subsequent
`get(k)` returns `null`, which is the same sentinel `get` yields for a key
present in neither cache nor store, so a stored `null` is indistinguishable
from not-found at the `get` interface. -/
theorem C10_null_value (s : KVState) (now now' : Nat) (ks : List Nat) (h : ks ≠ []) :
    (put s now (.vstr ks) .vnull {}).1 = .ok () ∧
    (put s now (.vstr ks) .vundef {}).1 = .error .invalidArg ∧
    (get (put s now (.vstr ks) .vnull {}).2 now' (.vstr ks)).1 = .ok .vnull ∧
    (∀ (s' : KVState) (k' : JSVal), mapGet s'.cache k' = none → mapGet s'.store k' = none →
      (get s' now' k').1 = .ok .vnull) := by
  have htr : JSVal.truthy (.vstr ks) = true := by simp [JSVal.truthy, h]
  have hput := put_ok s now (.vstr ks) .vnull {} htr (by simp) rfl
  refine ⟨by rw [hput], ?_, ?_, ?_⟩
  · exact (put_invalidArg_iff s now (.vstr ks) .vundef {}).2 (Or.inr rfl)
  · rw [hput]
    simp only [TinyKVStorePro.get, updateCache, mapGet_mapSet_self]
    simp [jsExpired, processValue, ttlActive, pure, Except.pure, Bind.bind, Except.bind]
  · intro s' k' hc hs
    simp [TinyKVStorePro.get, hc, hs]

/-- Witness for C10 at key `'k'`. -/
theorem C10_null_value_witness :
    strC "k" ≠ [] ∧
    ((put initState 0 (.vstr (strC "k")) .vnull {}).1 = .ok () ∧
     (put initState 0 (.vstr (strC "k")) .vundef {}).1 = .error .invalidArg ∧
     (get (put initState 0 (.vstr (strC "k")) .vnull {}).2 5 (.vstr (strC "k"))).1 = .ok .vnull ∧
     (∀ (s' : KVState) (k' : JSVal), mapGet s'.cache k' = none → mapGet s'.store k' = none →
       (get s' 5 k').1 = .ok .vnull)) :=
  ⟨by decide, C10_null_value initState 0 5 (strC "k") (by decide)⟩

/-! ## Claim C9: what the write log records -/

/-- C9 counterexample: on a fresh store, `delete('a')` reports
`success = false` (no mutation was accepted), yet a DELETE record has been
appended to the write log — the log records attempts, not accepted
mutations. -/
theorem C9_counterexample :
    (deleteOp initState 0 (.vstr (strC "a"))).1 = false ∧
    (deleteOp initState 0 (.vstr (strC "a"))).2.wal =
      [{ timestamp := 0, op := .DELETE, key := .vstr (strC "a") }] := by decide

/-- C9 (amended): every `delete(key)` call appends exactly one DELETE record
to the write log, including a call for an absent key, which reports
`success = false`; the log is thus a record of attempted mutations rather
than of accepted ones. -/
theorem C9_wal_records_attempts (s : KVState) (now : Nat) (k : JSVal) :
    (deleteOp s now k).2.wal = s.wal ++ [{ timestamp := now, op := .DELETE, key := k }] ∧
    ((deleteOp s now k).1 = false ↔ mapGet s.store k = none) := by
  cases h : mapGet s.store k <;> simp [deleteOp, mapHas, h]

/-! ## Claim C3: the encrypted-key set can diverge from the entry flags -/

/-- C3: re-putting an encrypted key *without* the encrypted option
overwrites the entry with `encrypted = false` but does not remove the key
from `encryptedKeys`: afterwards the key is still a member of the set while
its stored entry carries `encrypted = false` — exactly the divergence the
spec declares a bug. -/
theorem C3_encryptedKeys_divergence :
    (let s₁ := (put initState 0 (.vstr (strC "k")) (.vstr (strC "v")) { encrypted := true }).2
     let s₂ := (put s₁ 1 (.vstr (strC "k")) (.vstr (strC "v")) {}).2
     setHas s₂.encryptedKeys (.vstr (strC "k")) = true ∧
     (mapGet s₂.store (.vstr (strC "k"))).map Entry.encrypted = some false) := by decide

/-! ## Claim C2: the write-log bound

Only the *persisted* copy of the log (`this.wal.slice(-1000)`, written by
`persist()`) is bounded by 1000 records; the in-memory `this.wal` grows by
one record per `put`/`delete` call and is never truncated. -/

/-- The PUT record appended by `put('a', 'b')` at time `t`. -/
def walRecAt (t : Nat) : WalRec :=
  { timestamp := t, op := .PUT, key := .vstr (strC "a"), value := some (.vstr (strC "b")),
    options := some {} }

/-- `n` repeated `put('a', 'b')` calls, the `i`-th at time `start + i`. -/
def iterPuts (start : Nat) : Nat → KVState → KVState
  | 0, s => s
  | n + 1, s => iterPuts (start + 1) n (put s start (.vstr (strC "a")) (.vstr (strC "b")) {}).2

theorem put_wal_plain (s : KVState) (now : Nat) :
    ((put s now (.vstr (strC "a")) (.vstr (strC "b")) {}).2).wal = s.wal ++ [walRecAt now] := by
  rw [put_ok s now _ _ {} (by decide) (by decide) rfl]
  simp [updateCache, walRecAt]

theorem iterPuts_wal (n : Nat) : ∀ (start : Nat) (s : KVState),
    (iterPuts start n s).wal = s.wal ++ (List.range n).map (fun i => walRecAt (start + i)) := by
  induction n with
  | zero => intro start s; simp [iterPuts]
  | succ n ih =>
      intro start s
      rw [iterPuts, ih, put_wal_plain]
      rw [List.range_succ_eq_map]
      simp only [List.map_cons, List.map_map, List.append_assoc, List.cons_append,
        List.nil_append, Function.comp]
      congr 2
      apply List.map_congr_left
      intro a _
      simp only [Function.comp_apply]
      congr 1
      omega

/-- C2 counterexample: after 1001 accepted PUT mutations the in-memory
write log `this.wal` holds 1001 records — more than 1000 — and the oldest
record is still its head, contradicting both halves of the claim. -/
theorem C2_counterexample :
    (iterPuts 0 1001 initState).wal.length = 1001 ∧
    ¬ ((iterPuts 0 1001 initState).wal.length ≤ 1000) ∧
    (iterPuts 0 1001 initState).wal.head? = some (walRecAt 0) := by
  have h := iterPuts_wal 1001 0 initState
  rw [h]
  refine ⟨by simp [initState], by simp [initState], ?_⟩
  rw [List.range_succ_eq_map]
  simp [initState]

/-- C2 (amended): the 1000-record bound holds for the *persisted* tail of
the write log (`wal.slice(-1000)`, the `persistedWal` view written on every
mutation), not for the in-memory log: for every state the persisted log
holds at most 1000 records, and after 1001 PUTs it is the in-memory log
minus its head, so the oldest record is absent from it while the in-memory
log has grown to 1001 records. -/
theorem C2_wal_bound_amended (s : KVState) :
    (persistedWal s).length ≤ 1000 ∧
    (iterPuts 0 1001 initState).wal.length = 1001 ∧
    walRecAt 0 ∈ (iterPuts 0 1001 initState).wal ∧
    persistedWal (iterPuts 0 1001 initState) = (iterPuts 0 1001 initState).wal.drop 1 ∧
    walRecAt 0 ∉ persistedWal (iterPuts 0 1001 initState) := by
  have h := iterPuts_wal 1001 0 initState
  have h' : (iterPuts 0 1001 initState).wal = (List.range 1001).map (fun i => walRecAt (0 + i)) := by
    rw [h]; simp [initState]
  refine ⟨?_, ?_, ?_, ?_, ?_⟩
  · simp only [persistedWal, List.length_drop]
    omega
  · rw [h']; simp
  · rw [h']
    rw [List.range_succ_eq_map]
    simp
  · rw [persistedWal, h']
    simp
  · rw [persistedWal, h']
    rw [List.range_succ_eq_map]
    simp only [List.map_cons, List.length_cons, List.map_map,
      List.length_map, List.length_range]
    have h₁ : (1000 + 1 - 1000) = 1 := by omega
    rw [h₁]
    simp only [List.drop_one, List.tail_cons]
    simp [walRecAt, List.mem_map]

/-! ## Claim C4: cache capacity and FIFO eviction -/

theorem mapHas_iff_mem {V : Type} (m : List (JSVal × V)) (k : JSVal) :
    mapHas m k = true ↔ k ∈ m.map Prod.fst := by
  induction m with
  | nil => simp [mapHas, mapGet]
  | cons p rest ih =>
      obtain ⟨k₀, v₀⟩ := p
      by_cases h : k₀ = k
      · subst h
        simp [mapHas, mapGet, JSVal.beq_refl]
      · simp only [mapHas, mapGet, (JSVal.beq_eq_false_iff k₀ k).2 h]
        simpa [mapHas, Ne.symm h] using ih

theorem mapSet_append_of_not_has {V : Type} (m : List (JSVal × V)) (k : JSVal) (v : V)
    (h : mapHas m k = false) : mapSet m k v = m ++ [(k, v)] := by
  induction m with
  | nil => simp [mapSet]
  | cons p rest ih =>
      obtain ⟨k₀, v₀⟩ := p
      simp only [mapHas, mapGet] at h
      by_cases h₀ : JSVal.beq k₀ k = true
      · simp [h₀] at h
      · simp only [Bool.not_eq_true] at h₀
        simp only [mapSet, h₀, Bool.false_eq_true, if_false, List.cons_append,
          List.cons.injEq, true_and]
        exact ih (by simpa [mapHas, h₀] using h)

/-- The entry created by a `put` with empty options. -/
def plainEntry (v : JSVal) (now : Nat) : Entry :=
  { value := v, timestamp := now, encrypted := false, compressed := false, expiry := none }

theorem put_plain_state (s : KVState) (now : Nat) (k v : JSVal)
    (hk : JSVal.truthy k = true) (hv : v ≠ .vundef) :
    (put s now k v {}).2 =
      updateCache
        { s with store := mapSet s.store k (plainEntry v now),
                 wal := s.wal ++ [{ timestamp := now, op := .PUT, key := k,
                                    value := some v, options := some ({} : PutOptions) }] }
        k (plainEntry v now) := by
  rw [put_ok s now k v {} hk hv rfl]
  cases v <;> simp [ttlActive, plainEntry]

theorem mapHas_cons {V : Type} (a : JSVal) (b : V) (m : List (JSVal × V)) (k : JSVal) :
    mapHas ((a, b) :: m) k = (JSVal.beq a k || mapHas m k) := by
  by_cases h : JSVal.beq a k = true <;> simp [mapHas, mapGet, h]

theorem updateCache_fresh (s : KVState) (k : JSVal) (e : Entry)
    (hlen : s.cache.length < s.cacheSize) (hnew : mapHas s.cache k = false) :
    updateCache s k e = { s with cache := s.cache ++ [(k, e)] } := by
  unfold updateCache
  rw [if_neg (by omega)]
  simp only [mapSet_append_of_not_has _ _ _ hnew]

theorem updateCache_evict (s : KVState) (k : JSVal) (e : Entry) (k₀ : JSVal) (e₀ : Entry)
    (rest : List (JSVal × Entry)) (hc : s.cache = (k₀, e₀) :: rest)
    (hlen : s.cacheSize ≤ s.cache.length) (hnew : mapHas s.cache k = false) :
    updateCache s k e = { s with cache := rest ++ [(k, e)] } := by
  have hrest : mapHas rest k = false := by
    rw [hc, mapHas_cons] at hnew
    exact (Bool.or_eq_false_iff.mp hnew).2
  have hdel : mapDelete ((k₀, e₀) :: rest) k₀ = rest := by
    simp [mapDelete, JSVal.beq_refl]
  unfold updateCache
  rw [if_pos (by omega), hc]
  simp only [List.head?_cons, hdel, mapSet_append_of_not_has rest k e hrest]

theorem put_cache_fresh (s : KVState) (now : Nat) (k v : JSVal)
    (hk : JSVal.truthy k = true) (hv : v ≠ .vundef)
    (hlen : s.cache.length < s.cacheSize) (hnew : mapHas s.cache k = false) :
    (put s now k v {}).2.cache = s.cache ++ [(k, plainEntry v now)] ∧
    (put s now k v {}).2.cacheSize = s.cacheSize := by
  rw [put_plain_state s now k v hk hv]
  rw [updateCache_fresh
    { s with store := mapSet s.store k (plainEntry v now),
             wal := s.wal ++ [{ timestamp := now, op := .PUT, key := k,
                                value := some v, options := some ({} : PutOptions) }] }
    k (plainEntry v now) hlen hnew]
  exact ⟨rfl, rfl⟩

theorem put_cache_evict (s : KVState) (now : Nat) (k v : JSVal)
    (hk : JSVal.truthy k = true) (hv : v ≠ .vundef)
    (hlen : s.cacheSize ≤ s.cache.length) (hnew : mapHas s.cache k = false)
    (k₀ : JSVal) (e₀ : Entry) (rest : List (JSVal × Entry)) (hc : s.cache = (k₀, e₀) :: rest) :
    (put s now k v {}).2.cache = rest ++ [(k, plainEntry v now)] := by
  rw [put_plain_state s now k v hk hv]
  rw [updateCache_evict
    { s with store := mapSet s.store k (plainEntry v now),
             wal := s.wal ++ [{ timestamp := now, op := .PUT, key := k,
                                value := some v, options := some ({} : PutOptions) }] }
    k (plainEntry v now) k₀ e₀ rest hc hlen hnew]

/-- Puts of a list of (string) keys, all with the same value, empty options
and the same timestamp. -/
def foldPuts (now : Nat) (v : JSVal) (s : KVState) (ks : List (List Nat)) : KVState :=
  ks.foldl (fun st k => (put st now (.vstr k) v {}).2) s

theorem foldPuts_cache_append (now : Nat) (v : JSVal) (hv : v ≠ .vundef) :
    ∀ (ks : List (List Nat)) (s : KVState),
      (∀ k ∈ ks, k ≠ []) →
      (∀ k ∈ ks, mapHas s.cache (.vstr k) = false) →
      (ks.map (fun k => JSVal.vstr k)).Nodup →
      s.cache.length + ks.length ≤ s.cacheSize →
      (foldPuts now v s ks).cache =
        s.cache ++ ks.map (fun k => (JSVal.vstr k, plainEntry v now)) ∧
      (foldPuts now v s ks).cacheSize = s.cacheSize := by
  intro ks
  induction ks with
  | nil => intro s _ _ _ _; simp [foldPuts]
  | cons k rest ih =>
      intro s hne hfresh hnd hlen
      have hk : JSVal.truthy (.vstr k) = true := by
        simp [JSVal.truthy, hne k (List.mem_cons_self k rest)]
      have hfirst := put_cache_fresh s now (.vstr k) v hk hv
        (by simp at hlen; omega) (hfresh k (List.mem_cons_self k rest))
      have hstep : foldPuts now v s (k :: rest) =
          foldPuts now v (put s now (.vstr k) v {}).2 rest := by
        simp [foldPuts]
      rw [hstep]
      simp only [List.map_cons, List.nodup_cons] at hnd
      have hrest := ih (put s now (.vstr k) v {}).2
        (fun k' hk' => hne k' (List.mem_cons_of_mem k hk'))
        (fun k' hk' => by
          rw [hfirst.1]
          rw [← Bool.not_eq_true, mapHas_iff_mem]
          simp only [List.map_append, List.map_cons, List.map_nil, List.mem_append,
            List.mem_cons, List.not_mem_nil, or_false]
          rintro (hmem | hkk)
          · have := hfresh k' (List.mem_cons_of_mem k hk')
            rw [← Bool.not_eq_true, mapHas_iff_mem] at this
            exact this hmem
          · exact hnd.1 (hkk ▸ List.mem_map_of_mem (fun k => JSVal.vstr k) hk'))
        hnd.2
        (by rw [hfirst.1, hfirst.2]; simp at hlen ⊢; omega)
      refine ⟨?_, by rw [hrest.2, hfirst.2]⟩
      rw [hrest.1, hfirst.1]
      simp

/-- C4: starting from an empty cache of capacity `C = cacheSize > 0`,
putting `C + 1` distinct (non-empty, plain) keys leaves exactly `C` keys in
the cache — the later `C` keys in insertion order — and the evicted key is
the first one inserted (FIFO by insertion); moreover a cache hit on `get`
(of a non-expired entry) leaves the state, in particular the cache and its
order, completely unchanged, so a hit does not change eviction priority. -/
theorem C4_cache_fifo (s : KVState) (now now' : Nat) (v : JSVal) (ks : List (List Nat))
    (hcache : s.cache = []) (hC : 0 < s.cacheSize) (hlen : ks.length = s.cacheSize + 1)
    (hkeys : ∀ k ∈ ks, k ≠ []) (hnd : ks.Nodup) (hv : v ≠ .vundef) :
    (foldPuts now v s ks).cache.length = s.cacheSize ∧
    (foldPuts now v s ks).cache.map Prod.fst = (ks.map (fun k => JSVal.vstr k)).drop 1 ∧
    (∀ k₀, ks.head? = some k₀ → mapHas (foldPuts now v s ks).cache (.vstr k₀) = false) ∧
    (∀ (s' : KVState) (k : JSVal) (e : Entry), mapGet s'.cache k = some e →
      jsExpired e.expiry now' = false → (get s' now' k).2 = s') := by
  have hndm : (ks.map (fun k => JSVal.vstr k)).Nodup :=
    hnd.map (fun a b h => by simpa using h)
  have partB : ∀ (s' : KVState) (k : JSVal) (e : Entry), mapGet s'.cache k = some e →
      jsExpired e.expiry now' = false → (get s' now' k).2 = s' := by
    intro s' k e hce hexp
    simp only [TinyKVStorePro.get, hce, hexp, Bool.false_eq_true, if_false]
    cases processValue e.value e <;> rfl
  rcases List.eq_nil_or_concat ks with hnil | ⟨ks', klast, hconcat⟩
  · subst hnil; simp at hlen
  rw [List.concat_eq_append] at hconcat
  subst hconcat
  have hlen' : ks'.length = s.cacheSize := by simpa using hlen
  obtain ⟨k₀, mid, rfl⟩ : ∃ k₀ mid, ks' = k₀ :: mid := by
    cases ks' with
    | nil => rw [List.length_nil] at hlen'; omega
    | cons a b => exact ⟨a, b, rfl⟩
  have hnd₁ : ((k₀ :: mid).map (fun k => JSVal.vstr k)).Nodup := by
    rw [List.map_append] at hndm
    exact (List.nodup_append.mp hndm).1
  have hfresh_last : JSVal.vstr klast ∉ ((k₀ :: mid).map (fun k => JSVal.vstr k)) := by
    intro hin
    rw [List.map_append] at hndm
    exact (List.nodup_append.mp hndm).2.2 hin (by simp)
  have hfill := foldPuts_cache_append now v hv (k₀ :: mid) s
    (fun k hk => hkeys k (List.mem_append_left _ hk))
    (fun k _ => by rw [hcache]; rfl)
    hnd₁
    (by rw [hcache]; simp only [List.length_nil, Nat.zero_add]; omega)
  have hcbefore : (foldPuts now v s (k₀ :: mid)).cache =
      (JSVal.vstr k₀, plainEntry v now) :: mid.map (fun k => (JSVal.vstr k, plainEntry v now)) := by
    rw [hfill.1, hcache]
    simp
  have hfold : foldPuts now v s ((k₀ :: mid) ++ [klast]) =
      (put (foldPuts now v s (k₀ :: mid)) now (.vstr klast) v {}).2 := by
    simp [foldPuts, List.foldl_append]
  have hklast_t : JSVal.truthy (.vstr klast) = true := by
    simp [JSVal.truthy, hkeys klast (by simp)]
  have hklast_fresh : mapHas (foldPuts now v s (k₀ :: mid)).cache (.vstr klast) = false := by
    rw [← Bool.not_eq_true, mapHas_iff_mem, hcbefore]
    intro hin
    apply hfresh_last
    simpa [List.map_map, Function.comp] using hin
  have hclen : (foldPuts now v s (k₀ :: mid)).cache.length = s.cacheSize := by
    rw [hcbefore]
    simp only [List.length_cons, List.length_map]
    simp only [List.length_cons] at hlen'
    omega
  have hevict := put_cache_evict (foldPuts now v s (k₀ :: mid)) now (.vstr klast) v
    hklast_t hv (by rw [hclen, hfill.2]) hklast_fresh _ _ _ hcbefore
  rw [hfold]
  refine ⟨?_, ?_, ?_, partB⟩
  · rw [hevict]
    simp only [List.length_append, List.length_map, List.length_cons, List.length_nil]
    simp only [List.length_cons] at hlen'
    omega
  · rw [hevict]
    simp [List.map_map, Function.comp]
  · intro kh hkh
    simp only [List.cons_append, List.head?_cons, Option.some.injEq] at hkh
    subst hkh
    rw [← Bool.not_eq_true, mapHas_iff_mem, hevict]
    intro hin
    have hin' : JSVal.vstr k₀ ∈ (mid.map (fun k => JSVal.vstr k)) ++ [JSVal.vstr klast] := by
      simpa [List.map_map, Function.comp] using hin
    have hsimp : (k₀ ∉ mid ∧ ¬k₀ = klast) ∧
        (List.map (fun k => JSVal.vstr k) mid ++ [JSVal.vstr klast]).Nodup := by
      simpa using hndm
    rcases List.mem_append.mp hin' with hm | hm
    · exact hsimp.1.1 (by simpa using hm)
    · exact hsimp.1.2 (by simpa using hm)

/-- Witness for C4 at capacity 2 with keys `a`, `b`, `c`. -/
theorem C4_cache_fifo_witness :
    ({ initState with cacheSize := 2 } : KVState).cache = [] ∧
    0 < ({ initState with cacheSize := 2 } : KVState).cacheSize ∧
    ([strC "a", strC "b", strC "c"].length = ({ initState with cacheSize := 2 } : KVState).cacheSize + 1) ∧
    (∀ k ∈ [strC "a", strC "b", strC "c"], k ≠ []) ∧
    ([strC "a", strC "b", strC "c"] : List (List Nat)).Nodup ∧
    (JSVal.vstr (strC "x") ≠ .vundef) ∧
    ((foldPuts 0 (.vstr (strC "x")) { initState with cacheSize := 2 }
        [strC "a", strC "b", strC "c"]).cache.length =
      ({ initState with cacheSize := 2 } : KVState).cacheSize ∧
     (foldPuts 0 (.vstr (strC "x")) { initState with cacheSize := 2 }
        [strC "a", strC "b", strC "c"]).cache.map Prod.fst =
      (([strC "a", strC "b", strC "c"]).map (fun k => JSVal.vstr k)).drop 1 ∧
     (∀ k₀, ([strC "a", strC "b", strC "c"] : List (List Nat)).head? = some k₀ →
       mapHas (foldPuts 0 (.vstr (strC "x")) { initState with cacheSize := 2 }
         [strC "a", strC "b", strC "c"]).cache (.vstr k₀) = false) ∧
     (∀ (s' : KVState) (k : JSVal) (e : Entry), mapGet s'.cache k = some e →
       jsExpired e.expiry 0 = false → (get s' 0 k).2 = s')) :=
  ⟨rfl, by decide, by decide, by decide, by decide, by decide,
   C4_cache_fifo { initState with cacheSize := 2 } 0 0 (.vstr (strC "x"))
     [strC "a", strC "b", strC "c"] rfl (by decide) (by decide) (by decide) (by decide)
     (by decide)⟩

/-! ## Claim C5: TTL expiry via the lazy check and via the deferred timer -/

theorem keys_mapSet_of_has {V : Type} (m : List (JSVal × V)) (k : JSVal) (v : V)
    (h : mapHas m k = true) : (mapSet m k v).map Prod.fst = m.map Prod.fst := by
  induction m with
  | nil => simp [mapHas, mapGet] at h
  | cons p rest ih =>
      obtain ⟨k₀, v₀⟩ := p
      by_cases hb : JSVal.beq k₀ k = true
      · simp [mapSet, hb]
      · rw [mapHas_cons] at h
        have h' : mapHas rest k = true := by simpa [hb] using h
        simp [mapSet, hb, ih h']

theorem keys_mapSet_nodup {V : Type} (m : List (JSVal × V)) (k : JSVal) (v : V)
    (h : (m.map Prod.fst).Nodup) : ((mapSet m k v).map Prod.fst).Nodup := by
  by_cases hh : mapHas m k = true
  · rw [keys_mapSet_of_has m k v hh]
    exact h
  · rw [mapSet_append_of_not_has m k v (Bool.eq_false_iff.mpr hh)]
    rw [mapHas_iff_mem] at hh
    simp only [List.map_append, List.map_cons, List.map_nil]
    rw [List.nodup_append]
    refine ⟨h, List.nodup_singleton _, ?_⟩
    intro a ha hak
    rw [List.mem_singleton] at hak
    subst hak
    exact hh ha

theorem keys_mapDelete_sublist {V : Type} (m : List (JSVal × V)) (k : JSVal) :
    ((mapDelete m k).map Prod.fst).Sublist (m.map Prod.fst) := by
  induction m with
  | nil => simp [mapDelete]
  | cons p rest ih =>
      obtain ⟨k₀, v₀⟩ := p
      by_cases hb : JSVal.beq k₀ k = true
      · simp only [mapDelete, hb, if_pos rfl, List.map_cons]
        exact List.sublist_cons_self _ _
      · simp only [mapDelete, hb, Bool.false_eq_true, if_false, List.map_cons]
        exact ih.cons₂ _

theorem updateCache_cache_nodup (s : KVState) (k : JSVal) (e : Entry)
    (h : (s.cache.map Prod.fst).Nodup) :
    (((updateCache s k e).cache).map Prod.fst).Nodup := by
  unfold updateCache
  apply keys_mapSet_nodup
  split
  · split
    · exact List.Nodup.sublist (keys_mapDelete_sublist _ _) h
    · exact h
  · exact h

theorem deleteOp_lookup (s : KVState) (now : Nat) (k : JSVal)
    (hs : (s.store.map Prod.fst).Nodup) (hc : (s.cache.map Prod.fst).Nodup) :
    mapGet (deleteOp s now k).2.store k = none ∧
    mapGet (deleteOp s now k).2.cache k = none := by
  exact ⟨mapGet_mapDelete_self _ _ hs, mapGet_mapDelete_self _ _ hc⟩

theorem ttlActive_natCast (t : Nat) (ht : 0 < t) :
    ttlActive (some (.vnum (t : Int) 0)) = true := by
  simp only [ttlActive, JSVal.truthy, Bool.and_eq_true, decide_eq_true_eq, ne_eq,
    Int.natCast_eq_zero]
  constructor
  · simpa using Nat.pos_iff_ne_zero.mp ht
  · exact_mod_cast ht

theorem ttlMs_natCast (t : Nat) : ttlMs (some (.vnum (t : Int) 0)) = 1000 * t := by
  have h0 : ((0 : Int)).toNat = 0 := rfl
  simp [ttlMs, h0]
  omega

theorem processValue_plain (val : JSVal) (e : Entry) (h1 : e.compressed = false)
    (h2 : e.encrypted = false) : processValue val e = .ok val := by
  simp [processValue, h1, h2, pure, Except.pure, Bind.bind, Except.bind]

/-- The entry created by `put` with a pure ttl option. -/
def ttlEntry (v : JSVal) (now E : Nat) : Entry :=
  { value := v, timestamp := now, encrypted := false, compressed := false, expiry := some E }

theorem put_ttl_state (s : KVState) (now : Nat) (k v : JSVal) (t : Nat)
    (hk : JSVal.truthy k = true) (hv : v ≠ .vundef) (ht : 0 < t) :
    put s now k v { ttl := some (.vnum (t : Int) 0) } =
      (.ok (), updateCache
        { s with
          store := mapSet s.store k (ttlEntry v now (now + 1000 * t)),
          wal := s.wal ++ [{ timestamp := now, op := .PUT, key := k, value := some v,
                             options := some { ttl := some (.vnum (t : Int) 0) } }],
          timers := s.timers ++ [(now + 1000 * t, k)] }
        k (ttlEntry v now (now + 1000 * t))) := by
  rw [put_ok s now k v { ttl := some (.vnum (t : Int) 0) } hk hv rfl]
  have hact := ttlActive_natCast t ht
  have hms := ttlMs_natCast t
  cases v <;> simp [hact, hms, ttlEntry]

/-- C5: putting a key with `ttl = t > 0` seconds stores `expiry = now + 1000 t`
and schedules a deferred deletion at that instant.  On the lazy path, `get`
returns the stored value at any time up to the expiry instant and the
not-found sentinel `null` at any later time, deleting the expired key from
both store and cache as a side effect.  Independently, running the deferred
timer callback deletes the key, after which `get` returns `null` at any
time. -/
theorem C5_ttl_expiry (s : KVState) (now : Nat) (ks : List Nat) (v : JSVal) (t : Nat)
    (hk : ks ≠ []) (hv : v ≠ .vundef) (ht : 0 < t)
    (hs : (s.store.map Prod.fst).Nodup) (hc : (s.cache.map Prod.fst).Nodup) :
    (mapGet (put s now (.vstr ks) v { ttl := some (.vnum (t : Int) 0) }).2.store
        (.vstr ks)).map Entry.expiry = some (some (now + 1000 * t)) ∧
    (now + 1000 * t, JSVal.vstr ks) ∈
      (put s now (.vstr ks) v { ttl := some (.vnum (t : Int) 0) }).2.timers ∧
    (∀ t₁, t₁ ≤ now + 1000 * t →
      (TinyKVStorePro.get (put s now (.vstr ks) v { ttl := some (.vnum (t : Int) 0) }).2 t₁ (.vstr ks)).1 =
        .ok v) ∧
    (∀ t₂, now + 1000 * t < t₂ →
      (TinyKVStorePro.get (put s now (.vstr ks) v { ttl := some (.vnum (t : Int) 0) }).2 t₂ (.vstr ks)).1 =
          .ok .vnull ∧
      mapGet (TinyKVStorePro.get (put s now (.vstr ks) v { ttl := some (.vnum (t : Int) 0) }).2 t₂
        (.vstr ks)).2.store (.vstr ks) = none ∧
      mapGet (TinyKVStorePro.get (put s now (.vstr ks) v { ttl := some (.vnum (t : Int) 0) }).2 t₂
        (.vstr ks)).2.cache (.vstr ks) = none) ∧
    (∀ t₃ t₄,
      (TinyKVStorePro.get (runTimer (put s now (.vstr ks) v { ttl := some (.vnum (t : Int) 0) }).2
        t₃ (.vstr ks)) t₄ (.vstr ks)).1 = .ok .vnull) := by
  have hkt : JSVal.truthy (.vstr ks) = true := by simp [JSVal.truthy, hk]
  rw [put_ttl_state s now (.vstr ks) v t hkt hv ht]
  set E := now + 1000 * t with hE
  set e := ttlEntry v now E with he
  set s' : KVState :=
    { s with
      store := mapSet s.store (.vstr ks) e,
      wal := s.wal ++ [{ timestamp := now, op := .PUT, key := .vstr ks, value := some v,
                         options := some { ttl := some (.vnum (t : Int) 0) } }],
      timers := s.timers ++ [(E, JSVal.vstr ks)] } with hs'
  have hcachehit : mapGet (updateCache s' (.vstr ks) e).cache (.vstr ks) = some e := by
    simp only [updateCache]
    exact mapGet_mapSet_self _ _ _
  have hstorehit : mapGet (updateCache s' (.vstr ks) e).store (.vstr ks) = some e := by
    simp only [updateCache]
    exact mapGet_mapSet_self _ _ _
  have hsnod : (((updateCache s' (.vstr ks) e).store).map Prod.fst).Nodup := by
    simp only [updateCache]
    exact keys_mapSet_nodup _ _ _ hs
  have hcnod : (((updateCache s' (.vstr ks) e).cache).map Prod.fst).Nodup :=
    updateCache_cache_nodup s' (.vstr ks) e hc
  have hEpos : 0 < E := by omega
  refine ⟨?_, ?_, ?_, ?_, ?_⟩
  · rw [hstorehit]
    simp [he, ttlEntry]
  · simp only [updateCache]
    simp [hs']
  · intro t₁ ht₁
    have hexp : jsExpired e.expiry t₁ = false := by
      simp only [he, ttlEntry, jsExpired, Bool.and_eq_false_iff, decide_eq_false_iff_not]
      right
      omega
    simp only [TinyKVStorePro.get, hcachehit, hexp, Bool.false_eq_true, if_false]
    rw [processValue_plain e.value e (by simp [he, ttlEntry]) (by simp [he, ttlEntry])]
    simp [he, ttlEntry]
  · intro t₂ ht₂
    have hexp : jsExpired e.expiry t₂ = true := by
      simp only [he, ttlEntry, jsExpired, Bool.and_eq_true, decide_eq_true_eq]
      omega
    simp only [TinyKVStorePro.get, hcachehit, hexp, if_pos rfl]
    refine ⟨rfl, ?_, ?_⟩
    · exact (deleteOp_lookup _ t₂ _ hsnod hcnod).1
    · exact (deleteOp_lookup _ t₂ _ hsnod hcnod).2
  · intro t₃ t₄
    have hdel := deleteOp_lookup (updateCache s' (.vstr ks) e) t₃ (.vstr ks) hsnod hcnod
    simp only [runTimer, TinyKVStorePro.get, hdel.1, hdel.2]

/-- Witness for C5: key `'k'`, value `'x'`, ttl 1 second, put at time 0. -/
theorem C5_ttl_expiry_witness :
    (strC "k" ≠ [] ∧ JSVal.vstr (strC "x") ≠ .vundef ∧ 0 < 1 ∧
     (initState.store.map Prod.fst).Nodup ∧ (initState.cache.map Prod.fst).Nodup) ∧
    ((mapGet (put initState 0 (.vstr (strC "k")) (.vstr (strC "x"))
        { ttl := some (.vnum (1 : Int) 0) }).2.store
        (.vstr (strC "k"))).map Entry.expiry = some (some (0 + 1000 * 1)) ∧
     (0 + 1000 * 1, JSVal.vstr (strC "k")) ∈
       (put initState 0 (.vstr (strC "k")) (.vstr (strC "x"))
         { ttl := some (.vnum (1 : Int) 0) }).2.timers ∧
     (∀ t₁, t₁ ≤ 0 + 1000 * 1 →
       (TinyKVStorePro.get (put initState 0 (.vstr (strC "k")) (.vstr (strC "x"))
         { ttl := some (.vnum (1 : Int) 0) }).2 t₁ (.vstr (strC "k"))).1 =
         .ok (.vstr (strC "x"))) ∧
     (∀ t₂, 0 + 1000 * 1 < t₂ →
       (TinyKVStorePro.get (put initState 0 (.vstr (strC "k")) (.vstr (strC "x"))
         { ttl := some (.vnum (1 : Int) 0) }).2 t₂ (.vstr (strC "k"))).1 = .ok .vnull ∧
       mapGet (TinyKVStorePro.get (put initState 0 (.vstr (strC "k")) (.vstr (strC "x"))
         { ttl := some (.vnum (1 : Int) 0) }).2 t₂ (.vstr (strC "k"))).2.store
         (.vstr (strC "k")) = none ∧
       mapGet (TinyKVStorePro.get (put initState 0 (.vstr (strC "k")) (.vstr (strC "x"))
         { ttl := some (.vnum (1 : Int) 0) }).2 t₂ (.vstr (strC "k"))).2.cache
         (.vstr (strC "k")) = none) ∧
     (∀ t₃ t₄,
       (TinyKVStorePro.get (runTimer (put initState 0 (.vstr (strC "k")) (.vstr (strC "x"))
         { ttl := some (.vnum (1 : Int) 0) }).2 t₃ (.vstr (strC "k"))) t₄
         (.vstr (strC "k"))).1 = .ok .vnull)) :=
  ⟨⟨by decide, by decide, by decide, by decide, by decide⟩,
   C5_ttl_expiry initState 0 (strC "k") (.vstr (strC "x")) 1
     (by decide) (by decide) (by decide) (by decide) (by decide)⟩

/-! ## Claim C6: batch execution is ordered partial-apply -/

theorem batchRun_acc (now : Nat) (ops : List BatchOp) : ∀ (s : KVState) (acc : List BatchItem),
    (batchRun s now ops acc).1 = acc ++ (batchRun s now ops []).1 ∧
    (batchRun s now ops acc).2 = (batchRun s now ops []).2 := by
  induction ops with
  | nil => intro s acc; simp [batchRun]
  | cons b rest ih =>
      intro s acc
      cases hab : applyBatchOp s now b with
      | mk r s' =>
          cases r with
          | ok res =>
              have h1 := ih s' (acc ++ [{ op := b, result := res }])
              have h2 := ih s' [{ op := b, result := res }]
              simp only [batchRun, hab, List.nil_append]
              refine ⟨?_, ?_⟩
              · rw [h1.1, h2.1]
                simp
              · rw [h1.2, h2.2]
          | error err => simp [batchRun, hab]

theorem batchRun_none_ops (now : Nat) (ops : List BatchOp) : ∀ (s : KVState),
    (batchRun s now ops []).2.2 = none →
    (batchRun s now ops []).1.map (fun i => i.op) = ops := by
  induction ops with
  | nil => intro s _; simp [batchRun]
  | cons b rest ih =>
      intro s hnone
      cases hab : applyBatchOp s now b with
      | mk r s' =>
          cases r with
          | ok res =>
              rw [batchRun] at hnone ⊢
              simp only [hab, List.nil_append] at hnone ⊢
              rw [(batchRun_acc now rest s' [{ op := b, result := res }]).2] at hnone
              rw [(batchRun_acc now rest s' [{ op := b, result := res }]).1]
              simp only [List.map_append, List.map_cons, List.map_nil, List.singleton_append,
                List.cons.injEq, true_and]
              exact ih s' hnone
          | error err =>
              rw [batchRun] at hnone
              simp [hab] at hnone

theorem batchRun_split (now : Nat) (pre : List BatchOp) : ∀ (s : KVState) (bad : BatchOp)
    (post : List BatchOp) (e : JSErr),
    (batchRun s now pre []).2.2 = none →
    (applyBatchOp (batchRun s now pre []).2.1 now bad).1 = .error e →
    batchRun s now (pre ++ bad :: post) [] =
      ((batchRun s now pre []).1,
       (applyBatchOp (batchRun s now pre []).2.1 now bad).2, some e) := by
  induction pre with
  | nil =>
      intro s bad post e _ hbad
      simp only [batchRun, List.nil_append] at hbad ⊢
      cases hab : applyBatchOp s now bad with
      | mk r s' =>
          cases r with
          | ok res =>
              rw [hab] at hbad
              simp at hbad
          | error err =>
              rw [hab] at hbad
              simp at hbad
              subst hbad
              rfl
  | cons b pre' ih =>
      intro s bad post e hnone hbad
      cases hab : applyBatchOp s now b with
      | mk r s' =>
          cases r with
          | error err =>
              rw [batchRun] at hnone
              simp [hab] at hnone
          | ok res =>
              have hacc := batchRun_acc now pre' s' [{ op := b, result := res }]
              have hnone' : (batchRun s' now pre' []).2.2 = none := by
                rw [batchRun] at hnone
                simp only [hab, List.nil_append] at hnone
                rw [hacc.2] at hnone
                exact hnone
              have hbad' : (applyBatchOp (batchRun s' now pre' []).2.1 now bad).1 = .error e := by
                rw [batchRun] at hbad
                simp only [hab, List.nil_append] at hbad
                rw [hacc.2] at hbad
                exact hbad
              have hihx := ih s' bad post e hnone' hbad'
              have haccfull := batchRun_acc now (pre' ++ bad :: post) s'
                [{ op := b, result := res }]
              rw [List.cons_append, batchRun]
              simp only [hab, List.nil_append]
              refine Prod.ext ?_ (Prod.ext ?_ ?_)
              · rw [haccfull.1, hihx]
                rw [batchRun]
                simp only [hab, List.nil_append]
                rw [hacc.1]
              · have h2 := congrArg Prod.fst haccfull.2
                simp only at h2
                rw [h2, hihx]
                rw [batchRun]
                simp only [hab, List.nil_append]
                rw [hacc.2]
              · have h2 := congrArg Prod.snd haccfull.2
                simp only at h2
                rw [h2, hihx]

/-- C6: `batch` applies the operations strictly in order, collecting one
result object per operation (in the success case `results` lists exactly the
operations in order).  If applying one operation throws, no further
operations are processed: the call returns `success = false` together with
the results accumulated before the throwing operation, and the store effects
of the already-applied operations are retained (the final state is the state
reached after the prefix, plus whatever the throwing operation did before
throwing — for a throwing `put` that is nothing). -/
theorem C6_batch_partial_apply (s : KVState) (now : Nat) (pre post : List BatchOp)
    (bad : BatchOp) (e : JSErr)
    (hpre : (batchRun s now pre []).2.2 = none)
    (hbad : (applyBatchOp (batchRun s now pre []).2.1 now bad).1 = .error e) :
    (∀ ops' : List BatchOp, (batch s now ops').1.success = true →
      (batch s now ops').1.results.map (fun i => i.op) = ops') ∧
    (batch s now (pre ++ bad :: post)).1.success = false ∧
    (batch s now (pre ++ bad :: post)).1.results = (batchRun s now pre []).1 ∧
    (batch s now (pre ++ bad :: post)).1.results.map (fun i => i.op) = pre ∧
    (batch s now (pre ++ bad :: post)).2 =
      (applyBatchOp (batchRun s now pre []).2.1 now bad).2 := by
  have hsucc : ∀ ops' : List BatchOp, (batch s now ops').1.success = true →
      (batch s now ops').1.results.map (fun i => i.op) = ops' := by
    intro ops' h
    unfold batch at h ⊢
    cases hrun : batchRun s now ops' [] with
    | mk items rest =>
        cases rest with
        | mk s' err =>
            cases err with
            | none =>
                simp only [hrun] at h ⊢
                have := batchRun_none_ops now ops' s
                rw [hrun] at this
                exact this rfl
            | some e' => rw [hrun] at h; simp at h
  have hsplit := batchRun_split now pre s bad post e hpre hbad
  refine ⟨hsucc, ?_, ?_, ?_, ?_⟩
  · unfold batch
    rw [hsplit]
  · unfold batch
    rw [hsplit]
  · unfold batch
    rw [hsplit]
    simp only
    have := batchRun_none_ops now pre s
    exact this hpre
  · unfold batch
    rw [hsplit]

/-- The operations of the C6 witness scenario. -/
def c6pre : List BatchOp :=
  [{ op := strC "put", key := .vstr (strC "a"), value := .vstr (strC "1") }]

/-- The throwing operation of the C6 witness scenario (empty key). -/
def c6bad : BatchOp := { op := strC "put", key := .vstr [], value := .vstr (strC "2") }

/-- The never-processed tail of the C6 witness scenario. -/
def c6post : List BatchOp := [{ op := strC "get", key := .vstr (strC "a") }]

/-- Witness for C6: `PUT a=1` succeeds, then a `PUT` with an empty key
throws, and the trailing `GET` is never processed. -/
theorem C6_batch_partial_apply_witness :
    ((batchRun initState 0 c6pre []).2.2 = none ∧
     (applyBatchOp (batchRun initState 0 c6pre []).2.1 0 c6bad).1 = .error .invalidArg) ∧
    ((∀ ops' : List BatchOp, (batch initState 0 ops').1.success = true →
        (batch initState 0 ops').1.results.map (fun i => i.op) = ops') ∧
     (batch initState 0 (c6pre ++ c6bad :: c6post)).1.success = false ∧
     (batch initState 0 (c6pre ++ c6bad :: c6post)).1.results = (batchRun initState 0 c6pre []).1 ∧
     (batch initState 0 (c6pre ++ c6bad :: c6post)).1.results.map (fun i => i.op) = c6pre ∧
     (batch initState 0 (c6pre ++ c6bad :: c6post)).2 =
       (applyBatchOp (batchRun initState 0 c6pre []).2.1 0 c6bad).2) :=
  ⟨⟨by decide, by decide⟩,
   C6_batch_partial_apply initState 0 c6pre c6post c6bad .invalidArg (by decide) (by decide)⟩

/-! ## Claim C7: import — parse failures, skipping and counts -/

/-- The value of `v.name` when the property access does not throw. -/
def fieldD (v : JSVal) (name : List Nat) : JSVal :=
  ((jsField v name).toOption).getD .vundef

theorem jsField_ok (en : JSVal) (name : List Nat) (h1 : en ≠ .vnull) (h2 : en ≠ .vundef) :
    jsField en name = .ok (fieldD en name) := by
  cases en with
  | vnull => exact absurd rfl h1
  | vundef => exact absurd rfl h2
  | vobj fs =>
      simp only [jsField, fieldD]
      cases h : fs.reverse.find? (fun f => f.1 = name) with
      | none => simp [h, Except.toOption]
      | some f => simp [h, Except.toOption]
  | vstr s => simp [jsField, fieldD, Except.toOption]
  | vnum m p => simp [jsField, fieldD, Except.toOption]
  | vbool b => simp [jsField, fieldD, Except.toOption]
  | varr xs => simp [jsField, fieldD, Except.toOption]

theorem importLoop_spec (now : Nat) (entries : List JSVal) : ∀ (s : KVState) (acc : Nat),
    (∀ en ∈ entries, en ≠ .vnull ∧ en ≠ .vundef) →
    importLoop now s entries acc =
      (.ok (acc + entries.countP fun en =>
         JSVal.truthy (fieldD en (strC "key")) && JSVal.truthy (fieldD en (strC "value"))),
       entries.foldl (fun st en =>
         if JSVal.truthy (fieldD en (strC "key")) && JSVal.truthy (fieldD en (strC "value")) then
           (put st now (fieldD en (strC "key")) (fieldD en (strC "value"))
             { ttl := some (if JSVal.truthy (fieldD en (strC "ttl")) then
                 fieldD en (strC "ttl") else .vnull) }).2
         else st) s) := by
  induction entries with
  | nil => intro s acc _; simp [importLoop]
  | cons en rest ih =>
      intro s acc hnn
      have hen := hnn en (List.mem_cons_self en rest)
      have hrest : ∀ e ∈ rest, e ≠ JSVal.vnull ∧ e ≠ JSVal.vundef :=
        fun e he => hnn e (List.mem_cons_of_mem en he)
      rw [importLoop]
      rw [jsField_ok en (strC "key") hen.1 hen.2]
      simp only
      by_cases hk : JSVal.truthy (fieldD en (strC "key")) = true
      · rw [if_pos hk]
        rw [jsField_ok en (strC "value") hen.1 hen.2]
        simp only
        by_cases hv : JSVal.truthy (fieldD en (strC "value")) = true
        · rw [if_pos hv]
          rw [jsField_ok en (strC "ttl") hen.1 hen.2]
          simp only
          rw [ih _ (acc + 1) hrest]
          rw [List.countP_cons, List.foldl_cons]
          simp only [hk, hv, Bool.and_self, if_pos rfl]
          refine Prod.ext ?_ ?_
          · simp only [if_pos trivial]
            congr 1
            omega
          · rfl
        · rw [if_neg hv]
          rw [ih s acc hrest]
          rw [List.countP_cons, List.foldl_cons]
          simp [hk, hv]
      · rw [if_neg hk]
        rw [ih s acc hrest]
        rw [List.countP_cons, List.foldl_cons]
        simp [hk]

/-- C7 counterexample: a CSV import whose single record has key `"a"` and a
*present but empty* value.  Parsing succeeds and produces that record, yet
the record is not applied and not counted (`imported = 0`), and the store is
left untouched — although the record is not missing its key or value (an
empty string is a legal storable value: `put('a','')` succeeds). -/
theorem C7_counterexample :
    parseImport (strC "csv") (strC "Key,Value,Timestamp,Encrypted,TTL\n\x22a\x22,\x22\x22") =
      .ok [.vobj [(strC "key", .vstr (strC "a")), (strC "value", .vstr [])]] ∧
    (importData initState 0 (strC "Key,Value,Timestamp,Encrypted,TTL\n\x22a\x22,\x22\x22")
      (strC "csv")) =
      ({ success := true, imported := 0, total := 1 }, initState) ∧
    (put initState 0 (.vstr (strC "a")) (.vstr []) {}).1 = .ok () := by decide

/-- C7 (amended): if parsing fails (including an unsupported format, and a
JSON result that is not an array) the whole call returns `success = false`
with the error and zero effect on the state.  If parsing succeeds (and no
parsed element is `null`/`undefined`, which would make the apply loop
throw), the call reports `total` = number of parsed records, applies via
`put`, in order, exactly the records whose key *and* value are truthy —
records with a missing **or falsy** key or value (absent, `undefined`,
`null`, empty string, `0`, `false`) are silently skipped — and reports
`imported` = the number of applied records. -/
theorem C7_import_amended (s : KVState) (now : Nat) (data fmt : List Nat) :
    (∀ e, parseImport fmt data = .error e →
      importData s now data fmt = ({ success := false, error := some e }, s)) ∧
    (∀ entries, parseImport fmt data = .ok entries →
      (∀ en ∈ entries, en ≠ .vnull ∧ en ≠ .vundef) →
      importData s now data fmt =
        ({ success := true,
           imported := entries.countP fun en =>
             JSVal.truthy (fieldD en (strC "key")) && JSVal.truthy (fieldD en (strC "value")),
           total := entries.length },
         entries.foldl (fun st en =>
           if JSVal.truthy (fieldD en (strC "key")) &&
              JSVal.truthy (fieldD en (strC "value")) then
             (put st now (fieldD en (strC "key")) (fieldD en (strC "value"))
               { ttl := some (if JSVal.truthy (fieldD en (strC "ttl")) then
                   fieldD en (strC "ttl") else .vnull) }).2
           else st) s)) := by
  constructor
  · intro e he
    unfold importData
    rw [he]
  · intro entries he hnn
    unfold importData
    rw [he]
    simp only
    rw [importLoop_spec now entries s 0 hnn]
    simp

/-- The JSON data of the C7 witness: two records, the second missing its
value. -/
def c7data : List Nat :=
  strC "[\x7b\x22key\x22:\x22a\x22,\x22value\x22:\x22b\x22\x7d,\x7b\x22key\x22:\x22c\x22\x7d]"

/-- The parse result of `c7data`. -/
def c7entries : List JSVal :=
  [.vobj [(strC "key", .vstr (strC "a")), (strC "value", .vstr (strC "b"))],
   .vobj [(strC "key", .vstr (strC "c"))]]

/-- Witness for C7: the record with a value is applied, the one without is
skipped; `imported = 1`, `total = 2`. -/
theorem C7_import_amended_witness :
    (parseImport (strC "json") c7data = .ok c7entries ∧
     (∀ en ∈ c7entries, en ≠ .vnull ∧ en ≠ .vundef)) ∧
    importData initState 0 c7data (strC "json") =
      ({ success := true,
         imported := c7entries.countP fun en =>
           JSVal.truthy (fieldD en (strC "key")) && JSVal.truthy (fieldD en (strC "value")),
         total := c7entries.length },
       c7entries.foldl (fun st en =>
         if JSVal.truthy (fieldD en (strC "key")) &&
            JSVal.truthy (fieldD en (strC "value")) then
           (put st 0 (fieldD en (strC "key")) (fieldD en (strC "value"))
             { ttl := some (if JSVal.truthy (fieldD en (strC "ttl")) then
                 fieldD en (strC "ttl") else .vnull) }).2
         else st) initState) :=
  ⟨⟨by decide, by decide⟩,
   (C7_import_amended initState 0 c7data (strC "json")).2 c7entries (by decide) (by decide)⟩

/-! ## Claim C1: codec round-trips

First the `Crypto` round-trip `decrypt (encrypt v) = v`.  The decoder is
specified through `sextets`, the 6-bit groups that `b64Enc` emits, and
`padLen`, the number of `=` characters it appends. -/

namespace Crypto

/-- The sextet stream of the base64 encoding of a byte list. -/
def sextets : List Nat → List Nat
  | b1 :: b2 :: b3 :: rest =>
      b1 / 4 :: (b1 % 4 * 16 + b2 / 16) :: (b2 % 16 * 4 + b3 / 64) :: b3 % 64 :: sextets rest
  | [b1, b2] => [b1 / 4, b1 % 4 * 16 + b2 / 16, b2 % 16 * 4]
  | [b1] => [b1 / 4, b1 % 4 * 16]
  | [] => []

/-- How many `=` padding characters `b64Enc` appends. -/
def padLen : List Nat → Nat
  | _ :: _ :: _ :: rest => padLen rest
  | [_, _] => 1
  | [_] => 2
  | [] => 0

end Crypto

theorem b64Char_ne_61 (v : Nat) : Crypto.b64Char v ≠ 61 := by
  by_cases h : v < 64
  · have hb : ∀ w, w < 64 → Crypto.b64Char w ≠ 61 := by decide
    exact hb v h
  · unfold Crypto.b64Char
    rw [List.getD_eq_default]
    · decide
    · have hlen : Crypto.b64Alphabet.length = 64 := by decide
      omega

theorem isB64Ws_b64Char (v : Nat) : Crypto.isB64Ws (Crypto.b64Char v) = false := by
  by_cases h : v < 64
  · have hb : ∀ w, w < 64 → Crypto.isB64Ws (Crypto.b64Char w) = false := by decide
    exact hb v h
  · unfold Crypto.b64Char
    rw [List.getD_eq_default]
    · decide
    · have hlen : Crypto.b64Alphabet.length = 64 := by decide
      omega

theorem b64Index_b64Char (v : Nat) (h : v < 64) : Crypto.b64Index (Crypto.b64Char v) = some v := by
  have hb : ∀ w, w < 64 → Crypto.b64Index (Crypto.b64Char w) = some w := by decide
  exact hb v h

theorem b64Enc_eq : (bs : List Nat) →
    Crypto.b64Enc bs = (Crypto.sextets bs).map Crypto.b64Char ++ List.replicate (Crypto.padLen bs) 61
  | b1 :: b2 :: b3 :: rest => by
      rw [Crypto.b64Enc, Crypto.sextets, Crypto.padLen, b64Enc_eq rest]
      simp
  | [b1, b2] => by rfl
  | [b1] => by rfl
  | [] => by rfl

theorem sextets_padLen_mod : (bs : List Nat) →
    ((Crypto.sextets bs).length + Crypto.padLen bs) % 4 = 0
  | _ :: _ :: _ :: rest => by
      rw [Crypto.sextets, Crypto.padLen]
      have h := sextets_padLen_mod rest
      simp only [List.length_cons]
      omega
  | [_, _] => by simp [Crypto.sextets, Crypto.padLen]
  | [_] => by simp [Crypto.sextets, Crypto.padLen]
  | [] => by simp [Crypto.sextets, Crypto.padLen]

theorem padLen_cases : (bs : List Nat) →
    Crypto.padLen bs = 0 ∨ Crypto.padLen bs = 1 ∨ Crypto.padLen bs = 2
  | _ :: _ :: _ :: rest => by rw [Crypto.padLen]; exact padLen_cases rest
  | [_, _] => by simp [Crypto.padLen]
  | [_] => by simp [Crypto.padLen]
  | [] => by simp [Crypto.padLen]

theorem stripPad_of_ne_61 (s : List Nat) (h : ∀ c, s.getLast? = some c → c ≠ 61) :
    Crypto.stripPad s = s := by
  unfold Crypto.stripPad
  split
  · split
    · rename_i rest heq
      exfalso
      refine h 61 ?_ rfl
      rw [← List.head?_reverse, heq]
      rfl
    · rename_i rest heq
      exfalso
      refine h 61 ?_ rfl
      rw [← List.head?_reverse, heq]
      rfl
    · rfl
  · rfl

theorem stripPad_concat_two (L : List Nat) (hlen : (L ++ [61, 61]).length % 4 = 0) :
    Crypto.stripPad (L ++ [61, 61]) = L := by
  unfold Crypto.stripPad
  rw [if_pos hlen]
  have hrev : (L ++ [61, 61]).reverse = 61 :: 61 :: L.reverse := by simp
  rw [hrev]
  simp

theorem stripPad_concat_one (L : List Nat) (hlen : (L ++ [61]).length % 4 = 0)
    (h : ∀ c, L.getLast? = some c → c ≠ 61) (hne : L ≠ []) :
    Crypto.stripPad (L ++ [61]) = L := by
  unfold Crypto.stripPad
  rw [if_pos hlen]
  have hrev : (L ++ [61]).reverse = 61 :: L.reverse := by simp
  rw [hrev]
  obtain ⟨c, L', hL⟩ : ∃ c L', L.reverse = c :: L' := by
    cases hrev2 : L.reverse with
    | nil =>
        exfalso
        exact hne (by simpa using congrArg List.reverse hrev2)
    | cons c L' => exact ⟨c, L', rfl⟩
  have hc : c ≠ 61 := by
    refine h c ?_
    rw [← List.head?_reverse, hL]
    rfl
  rw [hL]
  split
  · rename_i rest heq
    exfalso
    rw [List.cons.injEq, List.cons.injEq] at heq
    exact hc heq.2.1
  · rename_i rest heq
    rw [List.cons.injEq] at heq
    rw [← heq.2, ← hL]
    simp
  · rename_i h1 h2
    exact absurd rfl (h2 (c :: L'))

theorem sextets_lt : (bs : List Nat) → (∀ b ∈ bs, b < 256) → ∀ v ∈ Crypto.sextets bs, v < 64
  | b1 :: b2 :: b3 :: rest, h => by
      rw [Crypto.sextets]
      intro v hv
      have h1 := h b1 (by simp)
      have h2 := h b2 (by simp)
      have h3 := h b3 (by simp)
      simp only [List.mem_cons] at hv
      rcases hv with rfl | rfl | rfl | rfl | hv
      · omega
      · omega
      · omega
      · omega
      · exact sextets_lt rest (fun b hb => h b (by simp [hb])) v hv
  | [b1, b2], h => by
      rw [Crypto.sextets]
      intro v hv
      have h1 := h b1 (by simp)
      have h2 := h b2 (by simp)
      simp only [List.mem_cons, List.not_mem_nil, or_false] at hv
      rcases hv with rfl | rfl | rfl <;> omega
  | [b1], h => by
      rw [Crypto.sextets]
      intro v hv
      have h1 := h b1 (by simp)
      simp only [List.mem_cons, List.not_mem_nil, or_false] at hv
      rcases hv with rfl | rfl <;> omega
  | [], _ => by
      intro v hv
      rw [Crypto.sextets] at hv
      simp at hv

theorem mapM_b64Index_map (vs : List Nat) (h : ∀ v ∈ vs, v < 64) :
    (vs.map Crypto.b64Char).mapM Crypto.b64Index = some vs := by
  induction vs with
  | nil => rfl
  | cons v rest ih =>
      rw [List.map_cons, List.mapM_cons]
      rw [b64Index_b64Char v (h v (by simp))]
      rw [ih (fun w hw => h w (by simp [hw]))]
      rfl

theorem b64Dec_sextets : (bs : List Nat) → (∀ b ∈ bs, b < 256) →
    Crypto.b64Dec (Crypto.sextets bs) = some bs
  | b1 :: b2 :: b3 :: rest, h => by
      rw [Crypto.sextets, Crypto.b64Dec]
      rw [b64Dec_sextets rest (fun b hb => h b (by simp [hb]))]
      have h1 := h b1 (by simp)
      have h2 := h b2 (by simp)
      have h3 := h b3 (by simp)
      refine congrArg some ?_
      simp only [List.cons.injEq]
      refine ⟨by omega, by omega, by omega, trivial⟩
  | [b1, b2], h => by
      rw [Crypto.sextets, Crypto.b64Dec]
      have h1 := h b1 (by simp)
      have h2 := h b2 (by simp)
      refine congrArg some ?_
      simp only [List.cons.injEq, and_true]
      omega
  | [b1], h => by
      rw [Crypto.sextets, Crypto.b64Dec]
      have h1 := h b1 (by simp)
      refine congrArg some ?_
      simp only [List.cons.injEq, and_true]
      omega
  | [], _ => by rfl

theorem sextets_ne_nil (bs : List Nat) (h : bs ≠ []) : Crypto.sextets bs ≠ [] := by
  cases bs with
  | nil => exact absurd rfl h
  | cons b1 rest =>
      cases rest with
      | nil => simp [Crypto.sextets]
      | cons b2 rest2 =>
          cases rest2 with
          | nil => simp [Crypto.sextets]
          | cons b3 rest3 => simp [Crypto.sextets]

/-- `atob` inverts `b64Enc` on byte lists. -/
theorem atob_b64Enc (bs : List Nat) (h : ∀ b ∈ bs, b < 256) :
    Crypto.atob (Crypto.b64Enc bs) = some bs := by
  have hfilter : (Crypto.b64Enc bs).filter (fun c => !Crypto.isB64Ws c) = Crypto.b64Enc bs := by
    rw [List.filter_eq_self]
    intro a ha
    rw [b64Enc_eq bs] at ha
    rcases List.mem_append.mp ha with hm | hm
    · obtain ⟨v, _, rfl⟩ := List.mem_map.mp hm
      simp [isB64Ws_b64Char]
    · rw [List.eq_of_mem_replicate hm]
      decide
  have hlast : ∀ c, ((Crypto.sextets bs).map Crypto.b64Char).getLast? = some c → c ≠ 61 := by
    intro c hC
    obtain ⟨hne, hceq⟩ := List.mem_getLast?_eq_getLast (x := c) hC
    have hmem := hceq ▸ List.getLast_mem hne
    obtain ⟨v, _, hv⟩ := List.mem_map.mp hmem
    rw [← hv]
    exact b64Char_ne_61 v
  have hmod := sextets_padLen_mod bs
  have hstrip : Crypto.stripPad (Crypto.b64Enc bs) = (Crypto.sextets bs).map Crypto.b64Char := by
    rw [b64Enc_eq bs]
    rcases padLen_cases bs with hp | hp | hp
    · rw [hp]
      simp only [List.replicate, List.append_nil]
      exact stripPad_of_ne_61 _ hlast
    · rw [hp]
      refine stripPad_concat_one _ ?_ hlast ?_
      · simpa [hp] using hmod
      · simp only [ne_eq, List.map_eq_nil_iff]
        apply sextets_ne_nil
        intro hnil
        rw [hnil] at hp
        simp [Crypto.padLen] at hp
    · rw [hp]
      refine stripPad_concat_two _ ?_
      simpa [hp] using hmod
  unfold Crypto.atob
  rw [hfilter, hstrip]
  rw [if_neg (by
    rw [List.length_map]
    rcases padLen_cases bs with hp | hp | hp <;> omega)]
  rw [mapM_b64Index_map _ (sextets_lt bs h)]
  simpa using b64Dec_sextets bs h

/-! ## Claim C1: the codec round trip through `put`/`get`

The XOR layer is an involution preserving the byte range, so the encryption
layer alone round-trips (`decrypt_encrypt` below, using `atob_b64Enc`).  The
compression layer round-trips exactly on strings with no digit adjacent to a
preceding character (`Compression.clean`, the §4.3 exclusion applied to the
compressor input); but when both options are set, `compress` runs on the
*base64 ciphertext*, whose digits are not constrained by the plaintext, so a
digit-free value can still be mangled (`C1_counterexample`). -/

theorem keyCodes_getD_lt (j : Nat) : Crypto.keyCodes.getD (j % 10) 0 < 256 := by
  have h : ∀ i < 10, Crypto.keyCodes.getD i 0 < 256 := by decide
  exact h _ (Nat.mod_lt j (by norm_num))

theorem xorFrom_xorFrom (s : List Nat) : ∀ i, Crypto.xorFrom i (Crypto.xorFrom i s) = s := by
  induction s with
  | nil => intro i; rfl
  | cons c rest ih =>
      intro i
      simp only [Crypto.xorFrom, ih (i + 1), List.cons.injEq, and_true]
      exact Nat.xor_cancel_right _ _

theorem xorKey_xorKey (s : List Nat) : Crypto.xorKey (Crypto.xorKey s) = s :=
  xorFrom_xorFrom s 0

theorem xorFrom_lt (s : List Nat) : ∀ i, (∀ c ∈ s, c < 256) →
    ∀ c ∈ Crypto.xorFrom i s, c < 256 := by
  induction s with
  | nil => intro i _ c hc; simp [Crypto.xorFrom] at hc
  | cons a rest ih =>
      intro i h c hc
      simp only [Crypto.xorFrom, List.mem_cons] at hc
      rcases hc with rfl | hc
      · have h1 : a < 2 ^ 8 := h a (by simp)
        have h2 : Crypto.keyCodes.getD (i % 10) 0 < 2 ^ 8 := keyCodes_getD_lt i
        exact Nat.xor_lt_two_pow h1 h2
      · exact ih (i + 1) (fun b hb => h b (by simp [hb])) c hc

theorem encrypt_eq (vs : List Nat) (h : ∀ c ∈ vs, c < 256) :
    Crypto.encrypt vs = some (Crypto.b64Enc (Crypto.xorKey vs)) := by
  unfold Crypto.encrypt Crypto.btoa
  rw [if_pos]
  simp only [List.all_eq_true, decide_eq_true_eq]
  exact fun c hc => xorFrom_lt vs 0 h c hc

theorem decrypt_encrypt (vs : List Nat) (h : ∀ c ∈ vs, c < 256) :
    Crypto.decrypt (Crypto.b64Enc (Crypto.xorKey vs)) = some vs := by
  unfold Crypto.decrypt
  rw [atob_b64Enc (Crypto.xorKey vs)
    (fun c hc => xorFrom_lt vs 0 h c (by simpa [Crypto.xorKey] using hc))]
  simp [xorKey_xorKey]

namespace Compression

/-- The §4.3 exclusion, applied to the compressor input: no digit character
is adjacent to (directly preceded by) another character, i.e. a digit can
occur only at position 0. -/
def clean (s : List Nat) : Bool := (s.drop 1).all (fun c => !isDigit c)

/-- The first character of `t` (if any) is not a digit. -/
def headND (t : List Nat) : Bool :=
  match t with
  | [] => true
  | x :: _ => !isDigit x

/-- The encoded image of a run list. -/
def encRuns (rs : List (Nat × Nat)) : List Nat := (rs.map runEnc).flatten

/-- The literal expansion of a run list. -/
def flatRuns (rs : List (Nat × Nat)) : List Nat :=
  (rs.map (fun r => List.replicate r.2 r.1)).flatten

end Compression

theorem compress_eq_encRuns (s : List Nat) :
    Compression.compress s = Compression.encRuns (Compression.runSplit s) := rfl

theorem decompGo_pend_exit (c : Nat) (t : List Nat) (h : Compression.headND t = true) :
    Compression.decompGo (.pend c) t = c :: Compression.decompGo .idle t := by
  cases t with
  | nil => rfl
  | cons x t' =>
      have hx : Compression.isDigit x = false := by
        simpa [Compression.headND] using h
      have lhs : Compression.decompGo (.pend c) (x :: t') =
          if Compression.isDigit x then Compression.decompGo (.tok c (x - 48)) t'
          else c :: (if Compression.isDot x then Compression.decompGo (.pend x) t'
                     else x :: Compression.decompGo .idle t') := rfl
      have rhs : Compression.decompGo .idle (x :: t') =
          if Compression.isDot x then Compression.decompGo (.pend x) t'
          else x :: Compression.decompGo .idle t' := rfl
      rw [lhs, if_neg (by simp [hx]), rhs]

theorem decompGo_tok_exit (c acc : Nat) (t : List Nat) (h : Compression.headND t = true) :
    Compression.decompGo (.tok c acc) t =
      List.replicate acc c ++ Compression.decompGo .idle t := by
  cases t with
  | nil => simp [Compression.decompGo]
  | cons x t' =>
      have hx : Compression.isDigit x = false := by
        simpa [Compression.headND] using h
      have lhs : Compression.decompGo (.tok c acc) (x :: t') =
          if Compression.isDigit x then
            Compression.decompGo (.tok c (acc * 10 + (x - 48))) t'
          else List.replicate acc c ++
            (if Compression.isDot x then Compression.decompGo (.pend x) t'
             else x :: Compression.decompGo .idle t') := rfl
      have rhs : Compression.decompGo .idle (x :: t') =
          if Compression.isDot x then Compression.decompGo (.pend x) t'
          else x :: Compression.decompGo .idle t' := rfl
      rw [lhs, if_neg (by simp [hx]), rhs]

theorem decompGo_tok_digits (c : Nat) : ∀ (ds : List Nat),
    (∀ d ∈ ds, Compression.isDigit d = true) → ∀ (acc : Nat) (t : List Nat),
    Compression.decompGo (.tok c acc) (ds ++ t) =
      Compression.decompGo (.tok c (ds.foldl (fun a d => a * 10 + (d - 48)) acc)) t := by
  intro ds
  induction ds with
  | nil => intro _ acc t; rfl
  | cons d ds' ih =>
      intro h acc t
      have hd : Compression.isDigit d = true := h d (by simp)
      rw [List.cons_append, Compression.decompGo, if_pos hd]
      rw [ih (fun e he => h e (by simp [he]))]
      rfl

theorem decompGo_pend_dotrun (c : Nat) (hc : Compression.isDot c = true)
    (hd : Compression.isDigit c = false) : ∀ (n : Nat) (t : List Nat),
    Compression.decompGo (.pend c) (List.replicate n c ++ t) =
      List.replicate n c ++ Compression.decompGo (.pend c) t := by
  intro n
  induction n with
  | zero => intro t; simp
  | succ m ih =>
      intro t
      rw [List.replicate_succ, List.cons_append, Compression.decompGo,
        if_neg (by simp [hd]), if_pos hc, ih]
      simp

theorem decompGo_idle_nondot (c : Nat) (hc : Compression.isDot c = false) :
    ∀ (n : Nat) (t : List Nat),
    Compression.decompGo .idle (List.replicate n c ++ t) =
      List.replicate n c ++ Compression.decompGo .idle t := by
  intro n
  induction n with
  | zero => intro t; simp
  | succ m ih =>
      intro t
      rw [List.replicate_succ, List.cons_append, Compression.decompGo,
        if_neg (by simp [hc]), ih]
      simp

theorem decompGo_idle_single (c : Nat) (t : List Nat) (h : Compression.headND t = true) :
    Compression.decompGo .idle (c :: t) = c :: Compression.decompGo .idle t := by
  by_cases hc : Compression.isDot c = true
  · rw [Compression.decompGo, if_pos hc, decompGo_pend_exit c t h]
  · rw [Compression.decompGo, if_neg hc]

theorem decompGo_idle_litrun (c n : Nat) (t : List Nat)
    (hd : Compression.isDigit c = false) (hn : 1 ≤ n) (h : Compression.headND t = true) :
    Compression.decompGo .idle (List.replicate n c ++ t) =
      List.replicate n c ++ Compression.decompGo .idle t := by
  by_cases hc : Compression.isDot c = true
  · obtain ⟨m, rfl⟩ : ∃ m, n = m + 1 := ⟨n - 1, by omega⟩
    rw [List.replicate_succ, List.cons_append, Compression.decompGo, if_pos hc,
      decompGo_pend_dotrun c hc hd m t, decompGo_pend_exit c t h]
    rw [List.append_cons, ← List.replicate_succ', List.replicate_succ, List.cons_append]
  · exact decompGo_idle_nondot c (by simpa using hc) n t

theorem decAux_all_digit : ∀ (fuel n : Nat), ∀ d ∈ Compression.decAux fuel n,
    Compression.isDigit d = true := by
  intro fuel
  induction fuel with
  | zero =>
      intro n d hd
      cases n <;> simp [Compression.decAux] at hd
  | succ f ih =>
      intro n d hd
      cases n with
      | zero => simp [Compression.decAux] at hd
      | succ m =>
          rw [Compression.decAux] at hd
          rcases List.mem_append.mp hd with hm | hm
          · exact ih _ d hm
          · simp only [List.mem_singleton] at hm
            subst hm
            simp only [Compression.isDigit]
            have : (m + 1) % 10 < 10 := Nat.mod_lt _ (by norm_num)
            simp only [Bool.and_eq_true, decide_eq_true_eq]
            omega

theorem decAux_ne_nil (fuel n : Nat) (hn : n ≠ 0) (hf : fuel ≠ 0) :
    Compression.decAux fuel n ≠ [] := by
  obtain ⟨m, rfl⟩ : ∃ m, n = m + 1 := ⟨n - 1, by omega⟩
  obtain ⟨f, rfl⟩ : ∃ f, fuel = f + 1 := ⟨fuel - 1, by omega⟩
  rw [Compression.decAux]
  simp

theorem parseDigits_decAux : ∀ (fuel : Nat), ∀ n ≤ fuel,
    Compression.parseDigits (Compression.decAux fuel n) = n := by
  intro fuel
  induction fuel with
  | zero =>
      intro n hn
      obtain rfl : n = 0 := by omega
      rfl
  | succ f ih =>
      intro n hn
      cases n with
      | zero => rfl
      | succ m =>
          rw [Compression.decAux]
          have hdiv : (m + 1) / 10 < m + 1 := Nat.div_lt_self (by omega) (by norm_num)
          have hih := ih ((m + 1) / 10) (by omega)
          simp only [Compression.parseDigits] at hih ⊢
          rw [List.foldl_append, hih]
          simp only [List.foldl_cons, List.foldl_nil]
          omega

theorem decimalCodes_all_digit (n : Nat) : ∀ d ∈ Compression.decimalCodes n,
    Compression.isDigit d = true := by
  unfold Compression.decimalCodes
  split
  · intro d hd
    simp only [List.mem_singleton] at hd
    subst hd
    decide
  · exact decAux_all_digit n n

theorem parseDigits_decimalCodes (n : Nat) :
    Compression.parseDigits (Compression.decimalCodes n) = n := by
  unfold Compression.decimalCodes
  split
  · subst n -- n = 0 hypothesis from the split
    rfl
  · exact parseDigits_decAux n n (le_refl n)

theorem decimalCodes_ne_nil (n : Nat) : Compression.decimalCodes n ≠ [] := by
  unfold Compression.decimalCodes
  split
  · simp
  · exact decAux_ne_nil n n (by assumption) (by assumption)

theorem decompGo_idle_encrun (c n : Nat) (t : List Nat)
    (hc : Compression.isDot c = true) (h : Compression.headND t = true) :
    Compression.decompGo .idle ((c :: Compression.decimalCodes n) ++ t) =
      List.replicate n c ++ Compression.decompGo .idle t := by
  obtain ⟨d, ds, hds⟩ : ∃ d ds, Compression.decimalCodes n = d :: ds := by
    cases hcc : Compression.decimalCodes n with
    | nil => exact absurd hcc (decimalCodes_ne_nil n)
    | cons d ds => exact ⟨d, ds, rfl⟩
  have hall := decimalCodes_all_digit n
  rw [hds] at hall
  have hd : Compression.isDigit d = true := hall d (by simp)
  rw [List.cons_append, Compression.decompGo, if_pos hc, hds, List.cons_append,
    Compression.decompGo, if_pos hd]
  rw [decompGo_tok_digits c ds (fun e he => hall e (by simp [he]))]
  have hfold : ds.foldl (fun a e => a * 10 + (e - 48)) (d - 48) = n := by
    have hpd := parseDigits_decimalCodes n
    rw [hds] at hpd
    simp only [Compression.parseDigits, List.foldl_cons] at hpd
    have h0 : 0 * 10 + (d - 48) = d - 48 := by omega
    rw [h0] at hpd
    exact hpd
  rw [hfold, decompGo_tok_exit c n t h]

theorem runSplit_cons_nil (c : Nat) (rest : List Nat)
    (h : Compression.runSplit rest = []) :
    Compression.runSplit (c :: rest) = [(c, 1)] := by
  rw [Compression.runSplit, h]

theorem runSplit_cons_cons (c : Nat) (rest : List Nat) (c' n : Nat)
    (rs : List (Nat × Nat)) (h : Compression.runSplit rest = (c', n) :: rs) :
    Compression.runSplit (c :: rest) =
      if c = c' then (c, n + 1) :: rs else (c, 1) :: (c', n) :: rs := by
  rw [Compression.runSplit, h]

theorem runEnc_head (r : Nat × Nat) (hr : 1 ≤ r.2) :
    ∃ t, Compression.runEnc r = r.1 :: t := by
  unfold Compression.runEnc
  split
  · exact ⟨Compression.decimalCodes r.2, rfl⟩
  · obtain ⟨m, hm⟩ : ∃ m, r.2 = m + 1 := ⟨r.2 - 1, by omega⟩
    exact ⟨List.replicate m r.1, by rw [hm, List.replicate_succ]⟩

theorem headND_encRuns (rs : List (Nat × Nat)) (h1 : ∀ r ∈ rs, 1 ≤ r.2)
    (h2 : ∀ r ∈ rs, Compression.isDigit r.1 = false) :
    Compression.headND (Compression.encRuns rs) = true := by
  cases rs with
  | nil => rfl
  | cons r rs' =>
      obtain ⟨t, ht⟩ := runEnc_head r (h1 r (by simp))
      simp only [Compression.encRuns, List.map_cons, List.flatten_cons, ht, List.cons_append]
      simp [Compression.headND, h2 r (by simp)]

theorem decomp_encRuns : ∀ (rs : List (Nat × Nat)),
    (∀ r ∈ rs, 1 ≤ r.2 ∧ Compression.isDigit r.1 = false) →
    Compression.decompGo .idle (Compression.encRuns rs) = Compression.flatRuns rs := by
  intro rs
  induction rs with
  | nil => intro _; rfl
  | cons r rs' ih =>
      intro h
      have hr := h r (by simp)
      have hrest : ∀ q ∈ rs', 1 ≤ q.2 ∧ Compression.isDigit q.1 = false :=
        fun q hq => h q (by simp [hq])
      have hhd : Compression.headND (Compression.encRuns rs') = true :=
        headND_encRuns rs' (fun q hq => (hrest q hq).1) (fun q hq => (hrest q hq).2)
      have hE : Compression.encRuns (r :: rs') =
          Compression.runEnc r ++ Compression.encRuns rs' := by
        simp [Compression.encRuns]
      have hF : Compression.flatRuns (r :: rs') =
          List.replicate r.2 r.1 ++ Compression.flatRuns rs' := by
        simp [Compression.flatRuns]
      rw [hE, hF]
      rw [show Compression.runEnc r =
        if Compression.isDot r.1 ∧ r.2 > 3 then r.1 :: Compression.decimalCodes r.2
        else List.replicate r.2 r.1 from rfl]
      split
      · rename_i hcond
        rw [decompGo_idle_encrun r.1 r.2 _ (by simp [hcond.1]) hhd]
        rw [ih hrest]
      · rw [decompGo_idle_litrun r.1 r.2 _ hr.2 hr.1 hhd, ih hrest]

theorem flatRuns_runSplit : ∀ (s : List Nat),
    Compression.flatRuns (Compression.runSplit s) = s := by
  intro s
  induction s with
  | nil => rfl
  | cons c rest ih =>
      cases hr : Compression.runSplit rest with
      | nil =>
          rw [runSplit_cons_nil c rest hr]
          rw [hr] at ih
          simp only [Compression.flatRuns, List.map_nil, List.flatten_nil] at ih
          simp [Compression.flatRuns, ← ih]
      | cons q rs =>
          obtain ⟨c', n⟩ := q
          rw [hr] at ih
          rw [runSplit_cons_cons c rest c' n rs hr]
          by_cases hc : c = c'
          · rw [if_pos hc]
            simp only [Compression.flatRuns, List.map_cons, List.flatten_cons] at ih ⊢
            rw [← ih, hc, List.replicate_succ, List.cons_append]
          · rw [if_neg hc]
            simp only [Compression.flatRuns, List.map_cons, List.flatten_cons] at ih ⊢
            rw [← ih]
            simp

theorem runSplit_pos : ∀ (s : List Nat), ∀ r ∈ Compression.runSplit s, 1 ≤ r.2 := by
  intro s
  induction s with
  | nil => intro r hr; simp [Compression.runSplit] at hr
  | cons c rest ih =>
      intro r hr
      cases heq : Compression.runSplit rest with
      | nil =>
          rw [runSplit_cons_nil c rest heq] at hr
          simp only [List.mem_singleton] at hr
          subst hr; simp
      | cons q rs =>
          obtain ⟨c', n⟩ := q
          rw [runSplit_cons_cons c rest c' n rs heq] at hr
          rw [heq] at ih
          by_cases hc : c = c'
          · rw [if_pos hc] at hr
            simp only [List.mem_cons] at hr
            rcases hr with rfl | hr
            · simp
            · exact ih r (by simp [hr])
          · rw [if_neg hc] at hr
            simp only [List.mem_cons] at hr
            rcases hr with rfl | hr
            · simp
            · exact ih r (by simpa using hr)

theorem runSplit_mem : ∀ (s : List Nat), ∀ r ∈ Compression.runSplit s, r.1 ∈ s := by
  intro s
  induction s with
  | nil => intro r hr; simp [Compression.runSplit] at hr
  | cons c rest ih =>
      intro r hr
      cases heq : Compression.runSplit rest with
      | nil =>
          rw [runSplit_cons_nil c rest heq] at hr
          simp only [List.mem_singleton] at hr
          subst hr; simp
      | cons q rs =>
          obtain ⟨c', n⟩ := q
          rw [runSplit_cons_cons c rest c' n rs heq] at hr
          rw [heq] at ih
          by_cases hc : c = c'
          · rw [if_pos hc] at hr
            simp only [List.mem_cons] at hr
            rcases hr with rfl | hr
            · simp
            · exact List.mem_cons_of_mem c (ih r (by simp [hr]))
          · rw [if_neg hc] at hr
            simp only [List.mem_cons] at hr
            rcases hr with rfl | hr
            · simp
            · exact List.mem_cons_of_mem c (ih r (by simpa using hr))

/-- On a clean string (no digit preceded by another character) the
run-length codec round-trips. -/
theorem decompress_compress (s : List Nat) (h : Compression.clean s = true) :
    Compression.decompress (Compression.compress s) = s := by
  cases s with
  | nil => rfl
  | cons c rest =>
      have hrest : ∀ x ∈ rest, Compression.isDigit x = false := by
        simpa [Compression.clean] using h
      unfold Compression.decompress
      rw [compress_eq_encRuns]
      by_cases hd : Compression.isDigit c = true
      · -- the head may be a digit: it forms a singleton run
        have hsplit : Compression.runSplit (c :: rest) =
            (c, 1) :: Compression.runSplit rest := by
          cases heq : Compression.runSplit rest with
          | nil => rw [runSplit_cons_nil c rest heq]
          | cons q rs =>
              obtain ⟨c', n⟩ := q
              have hc' : c' ∈ rest := runSplit_mem rest (c', n) (by rw [heq]; simp)
              have hne : c ≠ c' := by
                intro hcc
                rw [hcc] at hd
                rw [hrest c' hc'] at hd
                exact absurd hd (by simp)
              rw [runSplit_cons_cons c rest c' n rs heq, if_neg hne]
        rw [hsplit]
        have hres : ∀ r ∈ Compression.runSplit rest,
            1 ≤ r.2 ∧ Compression.isDigit r.1 = false := by
          intro r hr
          exact ⟨runSplit_pos rest r hr, hrest r.1 (runSplit_mem rest r hr)⟩
        have hhd : Compression.headND (Compression.encRuns (Compression.runSplit rest)) = true :=
          headND_encRuns _ (fun q hq => (hres q hq).1) (fun q hq => (hres q hq).2)
        have henc1 : Compression.runEnc (c, 1) = [c] := by
          rw [show Compression.runEnc (c, 1) =
            if Compression.isDot c ∧ 1 > 3 then c :: Compression.decimalCodes 1
            else List.replicate 1 c from rfl]
          rw [if_neg (by omega)]
          rfl
        have hE : Compression.encRuns ((c, 1) :: Compression.runSplit rest) =
            c :: Compression.encRuns (Compression.runSplit rest) := by
          simp [Compression.encRuns, henc1]
        rw [hE, decompGo_idle_single c _ hhd]
        rw [decomp_encRuns _ hres, flatRuns_runSplit rest]
      · -- no digit anywhere
        have hall : ∀ x ∈ c :: rest, Compression.isDigit x = false := by
          intro x hx
          rcases List.mem_cons.mp hx with rfl | hx
          · simpa using hd
          · exact hrest x hx
        have hres : ∀ r ∈ Compression.runSplit (c :: rest),
            1 ≤ r.2 ∧ Compression.isDigit r.1 = false := by
          intro r hr
          exact ⟨runSplit_pos _ r hr, hall r.1 (runSplit_mem _ r hr)⟩
        rw [decomp_encRuns _ hres, flatRuns_runSplit]

namespace TinyKVStorePro

/-- A `put` whose arguments pass validation and that encrypts a string value
whose code units fit in a byte. -/
theorem put_enc_ok (s : KVState) (now : Nat) (key : JSVal) (vs : List Nat)
    (opts : PutOptions) (hk : JSVal.truthy key = true) (henc : opts.encrypted = true)
    (hb : ∀ c ∈ vs, c < 256) :
    put s now key (.vstr vs) opts =
      (let stored : JSVal := if opts.compress
          then .vstr (Compression.compress (Crypto.b64Enc (Crypto.xorKey vs)))
          else .vstr (Crypto.b64Enc (Crypto.xorKey vs))
       let entry : Entry :=
        { value := stored, timestamp := now, encrypted := true,
          compressed := opts.compress,
          expiry := if ttlActive opts.ttl then some (now + ttlMs opts.ttl) else none }
       (.ok (), updateCache
        { s with
          store := mapSet s.store key entry,
          wal := s.wal ++ [{ timestamp := now, op := .PUT, key := key,
                             value := some stored, options := some opts }],
          encryptedKeys := setAdd s.encryptedKeys key,
          timers := if ttlActive opts.ttl then s.timers ++ [(now + ttlMs opts.ttl, key)]
            else s.timers }
        key entry)) := by
  unfold put
  rw [if_neg (by simp [hk])]
  have hj : jsEncrypt (JSVal.vstr vs) = .ok (Crypto.b64Enc (Crypto.xorKey vs)) := by
    simp [jsEncrypt, encrypt_eq vs hb]
  simp only [henc, if_true, hj]

/-- The stored (on-disk) string for a string value under the two codec
options (encrypt, then compress). -/
def codecStored (vs : List Nat) (eb cb : Bool) : List Nat :=
  if cb then Compression.compress (if eb then Crypto.b64Enc (Crypto.xorKey vs) else vs)
  else (if eb then Crypto.b64Enc (Crypto.xorKey vs) else vs)

/-- The entry `put` creates for a string value under the codec options and
no ttl. -/
def codecEntry (vs : List Nat) (eb cb : Bool) (now : Nat) : Entry :=
  { value := .vstr (codecStored vs eb cb), timestamp := now, encrypted := eb,
    compressed := cb, expiry := none }

theorem put_codec_state (s : KVState) (now : Nat) (key : JSVal) (vs : List Nat)
    (eb cb : Bool) (hk : JSVal.truthy key = true) (hb : eb = true → ∀ c ∈ vs, c < 256) :
    (put s now key (.vstr vs) {ttl := none, encrypted := eb, compress := cb}).2 =
      updateCache
        { s with
          store := mapSet s.store key (codecEntry vs eb cb now),
          wal := s.wal ++ [{ timestamp := now, op := .PUT, key := key,
                             value := some (.vstr (codecStored vs eb cb)),
                             options := some {ttl := none, encrypted := eb,
                                              compress := cb} }],
          encryptedKeys := if eb then setAdd s.encryptedKeys key
            else s.encryptedKeys }
        key (codecEntry vs eb cb now) ∧
    (put s now key (.vstr vs) {ttl := none, encrypted := eb, compress := cb}).1
      = .ok () := by
  cases eb with
  | false =>
      rw [put_ok s now key (.vstr vs) {ttl := none, encrypted := false, compress := cb}
        hk (by simp) rfl]
      cases cb <;> exact ⟨by simp [ttlActive, codecEntry, codecStored],
        by simp [ttlActive]⟩
  | true =>
      rw [put_enc_ok s now key vs {ttl := none, encrypted := true, compress := cb}
        hk rfl (hb rfl)]
      cases cb <;> exact ⟨by simp [ttlActive, codecEntry, codecStored],
        by simp [ttlActive]⟩

/-- After `updateCache`, looking the key up in the cache yields the entry. -/
theorem updateCache_get (s : KVState) (k : JSVal) (e : Entry) :
    mapGet (updateCache s k e).cache k = some e := by
  unfold updateCache
  exact mapGet_mapSet_self _ _ _

/-- A non-expiring cache hit makes `get` return exactly the decoded value. -/
theorem get_cache_hit (s : KVState) (now : Nat) (k : JSVal) (e : Entry)
    (hc : mapGet s.cache k = some e) (hx : e.expiry = none) :
    (TinyKVStorePro.get s now k).1 = processValue e.value e := by
  unfold TinyKVStorePro.get
  rw [hc]
  show (if jsExpired e.expiry now = true then (Except.ok JSVal.vnull, (deleteOp s now k).2)
        else match processValue e.value e with
          | Except.ok v => (Except.ok v, s)
          | Except.error er => (Except.error er, s)).1 = processValue e.value e
  rw [hx, if_neg (by simp [jsExpired])]
  cases hpv : processValue e.value e <;> simp [hpv]

theorem processValue_compressed (str : List Nat) (e : Entry) (h1 : e.compressed = true)
    (h2 : e.encrypted = false) :
    processValue (.vstr str) e = .ok (.vstr (Compression.decompress str)) := by
  simp [processValue, h1, h2, pure, Except.pure, Bind.bind, Except.bind]

theorem processValue_enc_ok (str vs : List Nat) (e : Entry) (h1 : e.compressed = false)
    (h2 : e.encrypted = true) (hdec : Crypto.decrypt str = some vs) :
    processValue (.vstr str) e = .ok (.vstr vs) := by
  simp [processValue, h1, h2, hdec, pure, Except.pure, Bind.bind, Except.bind]

theorem processValue_cc_ok (str vs : List Nat) (e : Entry) (h1 : e.compressed = true)
    (h2 : e.encrypted = true)
    (hdec : Crypto.decrypt (Compression.decompress str) = some vs) :
    processValue (.vstr str) e = .ok (.vstr vs) := by
  simp [processValue, h1, h2, hdec, pure, Except.pure, Bind.bind, Except.bind]

/-- The codec round trip through `put`/`get`, under the exact decoding
hypothesis for the chosen option pair. -/
theorem put_get_codec (s : KVState) (now : Nat) (key : JSVal) (vs : List Nat)
    (eb cb : Bool) (hk : JSVal.truthy key = true) (hb : eb = true → ∀ c ∈ vs, c < 256)
    (hdecode : processValue (.vstr (codecStored vs eb cb)) (codecEntry vs eb cb now)
      = .ok (.vstr vs)) :
    (TinyKVStorePro.get
      (put s now key (.vstr vs) {ttl := none, encrypted := eb, compress := cb}).2
      now key).1 = .ok (.vstr vs) := by
  obtain ⟨h2, _⟩ := put_codec_state s now key vs eb cb hk hb
  rw [h2]
  rw [get_cache_hit _ now key (codecEntry vs eb cb now) (updateCache_get _ key _) rfl]
  exact hdecode

end TinyKVStorePro

/-- C1 (counterexample): the frozen claim asserts the round trip for *every*
`{encrypted, compressed}` combination whenever the value avoids the §4.3
edge class (a digit adjacent to a preceding character).  The digit-free
value `'ah'` satisfies that, yet with both options set `put` stores
`compress(encrypt('ah')) = compress('BQ0=') = 'BQ0='`… whose decompression
scan turns `Q0` into zero copies of `Q`, leaving `'B='`, on which `atob`
throws, so `get` returns `null`, not `'ah'`. -/
theorem C1_counterexample :
    Compression.clean (strC "ah") = true ∧
    (TinyKVStorePro.get
      (TinyKVStorePro.put initState 0 (.vstr (strC "k")) (.vstr (strC "ah"))
        {encrypted := true, compress := true}).2
      0 (.vstr (strC "k"))).1 = .ok .vnull ∧
    JSVal.vnull ≠ JSVal.vstr (strC "ah") := by decide

/-- C1 (amended): for a non-empty key and a string value, `put` then `get`
returns the value — unconditionally with no codec options; with
`compressed` alone whenever the value itself avoids the §4.3 edge class
(`Compression.clean`: no digit directly preceded by another character);
with `encrypted` alone whenever every code unit fits in a byte (otherwise
`btoa` throws); and with both options only under the additional condition
that the *base64 ciphertext* avoids the §4.3 edge class — a condition on
the ciphertext, not the plaintext, which the `'ah'` counterexample
violates. -/
theorem C1_roundtrip_amended (s : KVState) (now : Nat) (ks vs : List Nat)
    (hk : ks ≠ []) :
    ((TinyKVStorePro.get
        (TinyKVStorePro.put s now (.vstr ks) (.vstr vs) {}).2
        now (.vstr ks)).1 = .ok (.vstr vs)) ∧
    (Compression.clean vs = true →
      (TinyKVStorePro.get
        (TinyKVStorePro.put s now (.vstr ks) (.vstr vs) {compress := true}).2
        now (.vstr ks)).1 = .ok (.vstr vs)) ∧
    ((∀ c ∈ vs, c < 256) →
      (TinyKVStorePro.get
        (TinyKVStorePro.put s now (.vstr ks) (.vstr vs) {encrypted := true}).2
        now (.vstr ks)).1 = .ok (.vstr vs)) ∧
    ((∀ c ∈ vs, c < 256) →
      Compression.clean (Crypto.b64Enc (Crypto.xorKey vs)) = true →
      (TinyKVStorePro.get
        (TinyKVStorePro.put s now (.vstr ks) (.vstr vs)
          {encrypted := true, compress := true}).2
        now (.vstr ks)).1 = .ok (.vstr vs)) := by
  have hk' : JSVal.truthy (.vstr ks) = true := by
    simpa [JSVal.truthy] using hk
  refine ⟨?_, ?_, ?_, ?_⟩
  · exact put_get_codec s now (.vstr ks) vs false false hk' (by simp)
      (processValue_plain (.vstr vs) (codecEntry vs false false now) rfl rfl)
  · intro hcl
    refine put_get_codec s now (.vstr ks) vs false true hk' (by simp) ?_
    have h := processValue_compressed (codecStored vs false true)
      (codecEntry vs false true now) rfl rfl
    rw [h]
    rw [show codecStored vs false true = Compression.compress vs from rfl]
    rw [decompress_compress vs hcl]
  · intro hb
    refine put_get_codec s now (.vstr ks) vs true false hk' (fun _ => hb) ?_
    exact processValue_enc_ok (codecStored vs true false) vs
      (codecEntry vs true false now) rfl rfl (decrypt_encrypt vs hb)
  · intro hb hcl
    refine put_get_codec s now (.vstr ks) vs true true hk' (fun _ => hb) ?_
    refine processValue_cc_ok (codecStored vs true true) vs
      (codecEntry vs true true now) rfl rfl ?_
    rw [show codecStored vs true true =
      Compression.compress (Crypto.b64Enc (Crypto.xorKey vs)) from rfl]
    rw [decompress_compress _ hcl]
    exact decrypt_encrypt vs hb

/-- Witness for C1 at key `'k'`, value `'ab'` (whose ciphertext `'BQc='` is
digit-free): all four option combinations round-trip. -/
theorem C1_roundtrip_amended_witness :
    ((TinyKVStorePro.get
        (TinyKVStorePro.put initState 0 (.vstr (strC "k")) (.vstr (strC "ab")) {}).2
        0 (.vstr (strC "k"))).1 = .ok (.vstr (strC "ab"))) ∧
    ((TinyKVStorePro.get
        (TinyKVStorePro.put initState 0 (.vstr (strC "k")) (.vstr (strC "ab"))
          {compress := true}).2
        0 (.vstr (strC "k"))).1 = .ok (.vstr (strC "ab"))) ∧
    ((TinyKVStorePro.get
        (TinyKVStorePro.put initState 0 (.vstr (strC "k")) (.vstr (strC "ab"))
          {encrypted := true}).2
        0 (.vstr (strC "k"))).1 = .ok (.vstr (strC "ab"))) ∧
    ((TinyKVStorePro.get
        (TinyKVStorePro.put initState 0 (.vstr (strC "k")) (.vstr (strC "ab"))
          {encrypted := true, compress := true}).2
        0 (.vstr (strC "k"))).1 = .ok (.vstr (strC "ab"))) := by
  have h := C1_roundtrip_amended initState 0 (strC "k") (strC "ab") (by decide)
  exact ⟨h.1, h.2.1 (by decide), h.2.2.1 (by decide), h.2.2.2 (by decide) (by decide)⟩
